import Mathlib

/-!
# Verification of the WOPAV competitive-ranking engine

Shallow Lean embedding of the ranking/placement core of the WOPAV
repository:

* `src/scoring_systems.py` — score parsing and category aggregation,
* `src/Main_Dashboard.py` — judge-ranking construction
  (`build_judge_rankings_for_subset`), head-to-head tie resolution
  (`resolve_ties`), majority placement (`determine_majority_placements`)
  and round merging (`combine_rounds_for_majority`).

Python floats are modelled as exact rationals (`ℚ`); Python `None` as
`Option.none`; Python dicts keyed by competitor start number as
association lists looked up with `List.lookup`.  While-loops are
modelled as fuel-indexed recursions together with lemmas showing the
supplied fuel suffices.
-/

/-! ## Python `sorted`

Python's `sorted` builtin (used by `statistics.median` and by the
ranking/placement code, always with a key that makes the order total on
the inputs that occur) is modelled by a structural stable insertion
sort, so that every concrete run is kernel-computable.  `le a b = true`
means "`a` may come before `b`". -/

def insertLe {α : Type} (le : α → α → Bool) (a : α) : List α → List α
  | [] => [a]
  | b :: l => if le a b then a :: b :: l else b :: insertLe le a l

/-- Model of Python `sorted(l)` under the total preorder `le`:
stable — elements that compare equal keep their original order. -/
def sortLe {α : Type} (le : α → α → Bool) : List α → List α
  | [] => []
  | a :: l => insertLe le a (sortLe le l)

theorem insertLe_perm {α : Type} (le : α → α → Bool) (a : α) (l : List α) :
    List.Perm (insertLe le a l) (a :: l) := by
  induction l with
  | nil => exact List.Perm.refl _
  | cons b t ih =>
    by_cases h : le a b
    · simp [insertLe, h]
    · simpa [insertLe, h] using ((ih.cons b).trans (List.Perm.swap a b t))

theorem sortLe_perm {α : Type} (le : α → α → Bool) (l : List α) :
    List.Perm (sortLe le l) l := by
  induction l with
  | nil => exact List.Perm.refl _
  | cons a t ih => exact (insertLe_perm le a (sortLe le t)).trans (ih.cons a)

theorem insertLe_sorted {α : Type} (le : α → α → Bool)
    (htot : ∀ a b, le a b = true ∨ le b a = true)
    (htrans : ∀ a b c, le a b = true → le b c = true → le a c = true)
    (a : α) (l : List α) (hl : l.Pairwise (fun x y => le x y = true)) :
    (insertLe le a l).Pairwise (fun x y => le x y = true) := by
  induction l with
  | nil => simp [insertLe]
  | cons b t ih =>
    rcases List.pairwise_cons.mp hl with ⟨hbt, htp⟩
    by_cases h : le a b
    · simp only [insertLe, if_pos h]
      refine List.pairwise_cons.mpr ⟨?_, hl⟩
      intro x hx
      rcases List.mem_cons.mp hx with rfl | hx
      · exact h
      · exact htrans a b x h (hbt x hx)
    · have hba : le b a = true := (htot a b).resolve_left (by simpa using h)
      simp only [insertLe, if_neg h]
      refine List.pairwise_cons.mpr ⟨?_, ih htp⟩
      intro x hx
      have hx' := (insertLe_perm le a t).mem_iff.mp hx
      rcases List.mem_cons.mp hx' with rfl | hx''
      · exact hba
      · exact hbt x hx''

theorem sortLe_sorted {α : Type} (le : α → α → Bool)
    (htot : ∀ a b, le a b = true ∨ le b a = true)
    (htrans : ∀ a b c, le a b = true → le b c = true → le a c = true)
    (l : List α) : (sortLe le l).Pairwise (fun x y => le x y = true) := by
  induction l with
  | nil => simp [sortLe]
  | cons a t ih => exact insertLe_sorted le htot htrans a (sortLe le t) ih

/-- Lexicographic code-point comparison on numeric key sequences; the
building block for Python's string `<`/sort-key comparisons. -/
def natListLe : List ℕ → List ℕ → Bool
  | [], _ => true
  | _ :: _, [] => false
  | a :: as, b :: bs => if a < b then true else if b < a then false else natListLe as bs

/-- Python's string comparison (lexicographic by code point), as used
when competitor start numbers serve as deterministic sort tie-breaks. -/
def pyStrLe (a b : String) : Bool :=
  natListLe (a.data.map Char.toNat) (b.data.map Char.toNat)

theorem natListLe_total (a b : List ℕ) : natListLe a b = true ∨ natListLe b a = true := by
  induction a generalizing b with
  | nil => left; rfl
  | cons x as ih =>
    cases b with
    | nil => right; rfl
    | cons y bs =>
      rcases Nat.lt_trichotomy x y with h | h | h
      · left; simp [natListLe, h]
      · subst h
        rcases ih bs with h' | h'
        · left; simpa [natListLe] using h'
        · right; simpa [natListLe] using h'
      · right; simp [natListLe, h]

theorem natListLe_trans (a b c : List ℕ) (hab : natListLe a b = true)
    (hbc : natListLe b c = true) : natListLe a c = true := by
  induction a generalizing b c with
  | nil => rfl
  | cons x as ih =>
    cases b with
    | nil => simp [natListLe] at hab
    | cons y bs =>
      cases c with
      | nil => simp [natListLe] at hbc
      | cons z cs =>
        simp only [natListLe] at hab hbc ⊢
        rcases Nat.lt_trichotomy x y with h1 | h1 | h1
        · rcases Nat.lt_trichotomy y z with h2 | h2 | h2
          · simp [Nat.lt_trans h1 h2]
          · subst h2; simp [h1]
          · rw [if_neg (by omega), if_pos h2] at hbc
            exact absurd hbc (by simp)
        · subst h1
          rcases Nat.lt_trichotomy x z with h2 | h2 | h2
          · simp [h2]
          · subst h2
            rw [if_neg (by omega), if_neg (by omega)] at hab hbc ⊢
            exact ih bs cs hab hbc
          · rw [if_neg (by omega), if_pos h2] at hbc
            exact absurd hbc (by simp)
        · rw [if_neg (by omega), if_pos h1] at hab
          exact absurd hab (by simp)

theorem pyStrLe_total (a b : String) : pyStrLe a b = true ∨ pyStrLe b a = true :=
  natListLe_total _ _

theorem pyStrLe_trans (a b c : String) (hab : pyStrLe a b = true)
    (hbc : pyStrLe b c = true) : pyStrLe a c = true :=
  natListLe_trans _ _ _ hab hbc

/-! ## Score normalizer (`scoring_systems._parse_score`) -/

/-- An input token for `_parse_score`: Python `None`, a numeric value,
or a raw string. -/
inductive ScoreToken where
  | none
  | num (q : ℚ)
  | str (s : String)
deriving DecidableEq

/-- The whitespace / decimal-separator normalisation applied by
`_parse_score` after stripping: remove plain spaces and non-breaking
spaces, then turn the comma decimal separator into a dot
(`scoring_systems.py` line 21). -/
def normalizeNumText (s : String) : String :=
  ((s.replace " " "").replace "\xA0" "").replace "," "."

/-- `_parse_score` (`scoring_systems.py` lines 12-25).  Python's builtin
`float` string parser is a language primitive external to the
repository; it is abstracted as a total function `pyFloat` returning
`none` exactly where `float(...)` raises `ValueError` (the `except`
branch of the source).  Numeric tokens are returned as-is and `None`
propagates; blank-after-strip strings short-circuit to `none` before
`float` is consulted. -/
def parseScore (pyFloat : String → Option ℚ) : ScoreToken → Option ℚ
  | .none => Option.none
  | .num q => some q
  | .str s =>
    let text := s.trim
    if text = "" then Option.none
    else pyFloat (normalizeNumText text)

/-! ## Category aggregation (`scoring_systems.py`) -/

/-- Python `statistics.median`: sort ascending; odd length takes the
middle element, even length averages the two middle elements.  The
`getD` default is unreachable for the nonempty lists the callers

supply. -/
def pyMedian (l : List ℚ) : ℚ :=
  let s := sortLe (fun a b : ℚ => a ≤ b) l
  let n := l.length
  if n % 2 = 1 then s.getD (n / 2) 0
  else (s.getD (n / 2 - 1) 0 + s.getD (n / 2) 0) / 2

/-- `_scaled_median_from_scores` (`scoring_systems.py` lines 28-48):
filter out absent scores; weight each available score `v` by
`1 / (1 + |v - median|²)`; return the weighted average, or `none` when
no score is available (or, defensively in the source, when the total
weight is zero). -/
def scaledMedianFromScores (scores : List (Option ℚ)) : Option ℚ :=
  let numericScores := scores.filterMap id
  if numericScores = [] then Option.none
  else
    let med := pyMedian numericScores
    let weights := numericScores.map (fun value => 1 / (1 + |value - med| ^ 2))
    let weightedValues :=
      numericScores.map (fun value => value * (1 / (1 + |value - med| ^ 2)))
    let totalWeight := weights.sum
    if totalWeight = 0 then Option.none
    else some (weightedValues.sum / totalWeight)

/-- `_simple_average` (`scoring_systems.py` lines 51-55). -/
def simpleAverage (scores : List (Option ℚ)) : Option ℚ :=
  let numericScores := scores.filterMap id
  if numericScores = [] then Option.none
  else some (numericScores.sum / numericScores.length)

/-! ### Helper lemmas for the aggregator -/

theorem list_sum_pos_of_forall_pos (l : List ℚ) (h : ∀ x ∈ l, 0 < x)
    (hne : l ≠ []) : 0 < l.sum := by
  induction l with
  | nil => exact absurd rfl hne
  | cons a t ih =>
    have ha : 0 < a := h a (List.mem_cons_self a t)
    rcases t with _ | ⟨b, t'⟩
    · simpa using ha
    · have ht : 0 < (b :: t').sum := by
        refine ih (fun x hx => h x (List.mem_cons_of_mem a hx)) (by simp)
      simpa [List.sum_cons] using add_pos ha ht

theorem scaledWeight_pos (v m : ℚ) : 0 < 1 / (1 + |v - m| ^ 2) := by
  have h : (0 : ℚ) < 1 + |v - m| ^ 2 := by positivity
  positivity

/-! ### Claims C8 and C9 -/

/-- **C8.** For every non-empty list of available scores the
scaled-median aggregate equals the weighted average
`Σ(v·w) / Σw` with `w = 1 / (1 + (v − m)²)` and `m` the ordinary
median (in particular the weight sum never vanishes, so the source's
defensive zero-weight branch is dead); the aggregate of
`[5,5,5,5,5]` is `5`; and on `[1,2,3,4,100]` the aggregate is strictly
closer to the median `3` than the simple average is. -/
theorem scaled_median_is_weighted_average :
    (∀ scores : List (Option ℚ), scores.filterMap id ≠ [] →
      ((scores.filterMap id).map
          (fun v => 1 / (1 + (v - pyMedian (scores.filterMap id)) ^ 2))).sum ≠ 0 ∧
      scaledMedianFromScores scores =
        some (((scores.filterMap id).map
            (fun v => v * (1 / (1 + (v - pyMedian (scores.filterMap id)) ^ 2)))).sum /
          ((scores.filterMap id).map
            (fun v => 1 / (1 + (v - pyMedian (scores.filterMap id)) ^ 2))).sum))
    ∧ scaledMedianFromScores [some 5, some 5, some 5, some 5, some 5] = some 5
    ∧ (∃ a b : ℚ,
        scaledMedianFromScores [some 1, some 2, some 3, some 4, some 100] = some a ∧
        simpleAverage [some 1, some 2, some 3, some 4, some 100] = some b ∧
        |a - 3| < |b - 3|) := by
  refine ⟨?_, by with_unfolding_all decide, ?_⟩
  · intro scores hne
    have hfun :
        (fun v : ℚ => 1 / (1 + |v - pyMedian (scores.filterMap id)| ^ 2)) =
          (fun v : ℚ => 1 / (1 + (v - pyMedian (scores.filterMap id)) ^ 2)) := by
      funext v; rw [sq_abs]
    have hwpos :
        0 < ((scores.filterMap id).map
          (fun v => 1 / (1 + (v - pyMedian (scores.filterMap id)) ^ 2))).sum := by
      refine list_sum_pos_of_forall_pos _ ?_ ?_
      · intro x hx
        rcases List.mem_map.mp hx with ⟨v, _, rfl⟩
        have := scaledWeight_pos v (pyMedian (scores.filterMap id))
        rwa [sq_abs] at this
      · simpa using hne
    refine ⟨ne_of_gt hwpos, ?_⟩
    rw [scaledMedianFromScores]
    simp only [hfun, if_neg hne, if_neg (ne_of_gt hwpos)]
    simp only [sq_abs]
  · refine ⟨58442 / 20703, 22, ?_, ?_, ?_⟩
    · have hfm : List.filterMap id [some (1:ℚ), some 2, some 3, some 4, some 100]
          = [1, 2, 3, 4, 100] := by with_unfolding_all decide
      have hmed : pyMedian [1, 2, 3, 4, 100] = 3 := by with_unfolding_all decide
      rw [scaledMedianFromScores]
      simp only [hfm, hmed]
      rw [if_neg (by simp)]
      have habs : ∀ v : ℚ, |v - 3| ^ 2 = (v - 3) ^ 2 := fun v => sq_abs _
      simp only [List.map_cons, List.map_nil, List.sum_cons, List.sum_nil, habs]
      rw [if_neg (by norm_num)]
      norm_num
    · with_unfolding_all decide
    · have ha : |(58442 : ℚ) / 20703 - 3| = 3667 / 20703 := by
        rw [abs_of_nonpos (by norm_num)]; norm_num
      have hb : |(22 : ℚ) - 3| = 19 := by rw [abs_of_nonneg (by norm_num)]; norm_num
      rw [ha, hb]; norm_num

/-- Closed instantiation of the universally quantified part of
`scaled_median_is_weighted_average` at the concrete score list
`[some 2, some 4]`. -/
theorem scaled_median_is_weighted_average_witness :
    scaledMedianFromScores [some (2 : ℚ), some 4] =
      some ((([some (2 : ℚ), some 4].filterMap id).map
          (fun v => v * (1 / (1 + (v - pyMedian ([some (2 : ℚ), some 4].filterMap id)) ^ 2)))).sum /
        (([some (2 : ℚ), some 4].filterMap id).map
          (fun v => 1 / (1 + (v - pyMedian ([some (2 : ℚ), some 4].filterMap id)) ^ 2))).sum) :=
  (scaled_median_is_weighted_average.1 [some 2, some 4] (by with_unfolding_all decide)).2

/-- **C9.** The score normalizer is total — by construction every token
yields a number or absent, never an exception — and, whatever partial
behaviour the abstracted builtin `float` parser has, the result is
absent exactly on: the absent marker, strings that are empty or
whitespace-only after stripping, and strings the float parser rejects
after whitespace/NBSP removal and comma→dot replacement. -/
theorem parse_score_total_and_absent_cases :
    ∀ pyFloat : String → Option ℚ,
    parseScore pyFloat ScoreToken.none = Option.none
    ∧ (∀ q : ℚ, parseScore pyFloat (ScoreToken.num q) = some q)
    ∧ (∀ s : String, parseScore pyFloat (ScoreToken.str s) = Option.none ↔
        (s.trim = "" ∨ pyFloat (normalizeNumText s.trim) = Option.none)) := by
  intro pyFloat
  refine ⟨rfl, fun q => rfl, fun s => ?_⟩
  by_cases h : s.trim = ""
  · simp [parseScore, h]
  · simp [parseScore, h]

/-! ## Competitor rows (`prepare_couples_data`, `Main_Dashboard.py` 78-109)

A prepared dataframe row.  Numeric text is already normalised to
`Option ℚ` by `parse_european_number`; the five per-category judge-score
lists hold one slot per judge (`None` = absent).  The Python `class`
column is called `classLabel` here (`class` is reserved in Lean). -/

/-- The five scoring categories, in the fixed iteration order used
throughout `Main_Dashboard.py` (`categories = ["BBW","BBM","LF","DF","MI"]`). -/
inductive Cat where
  | BBW | BBM | LF | DF | MI
deriving DecidableEq

def categoriesList : List Cat := [Cat.BBW, Cat.BBM, Cat.LF, Cat.DF, Cat.MI]

structure CoupleRow where
  start_number : String
  position : ℤ
  teor : Option ℚ
  sum : Option ℚ
  total : Option ℚ
  observer : String
  competitor_names : String
  location : String
  date : String
  round : String
  classLabel : String
  BBW_aggregated : Option ℚ
  BBM_aggregated : Option ℚ
  LF_aggregated : Option ℚ
  DF_aggregated : Option ℚ
  MI_aggregated : Option ℚ
  BBW_judge_scores : List (Option ℚ)
  BBM_judge_scores : List (Option ℚ)
  LF_judge_scores : List (Option ℚ)
  DF_judge_scores : List (Option ℚ)
  MI_judge_scores : List (Option ℚ)
deriving DecidableEq

/-- The `f"{cat}_judge_scores"` column of a row. -/
def CoupleRow.judgeScores (r : CoupleRow) : Cat → List (Option ℚ)
  | Cat.BBW => r.BBW_judge_scores
  | Cat.BBM => r.BBM_judge_scores
  | Cat.LF => r.LF_judge_scores
  | Cat.DF => r.DF_judge_scores
  | Cat.MI => r.MI_judge_scores

/-- Overwrite the `f"{cat}_judge_scores"` column of a row
(`combined[col_scores] = combined_scores`). -/
def CoupleRow.setJudgeScores (r : CoupleRow) (c : Cat) (l : List (Option ℚ)) : CoupleRow :=
  match c with
  | Cat.BBW => { r with BBW_judge_scores := l }
  | Cat.BBM => { r with BBM_judge_scores := l }
  | Cat.LF => { r with LF_judge_scores := l }
  | Cat.DF => { r with DF_judge_scores := l }
  | Cat.MI => { r with MI_judge_scores := l }

/-! ## Judge ranking builder (`build_judge_rankings_for_subset`,
`Main_Dashboard.py` 678-749)

The judge display-name resolution (source lines 699-717) only produces
presentation labels; the engine consumes just the judge count and the
per-judge rankings, which are modelled here. -/

/-- `len([s for s in scores if s is not None])` — the number of
non-absent slots in one judge-score list. -/
def countAvail (l : List (Option ℚ)) : ℕ :=
  (l.filter (fun s => s ≠ Option.none)).length

/-- One category's row scan of the judge-count discovery loop (source
lines 688-692): running maximum of `countAvail` starting from the
accumulated `num_judges`. -/
def catCountFold (rows : List CoupleRow) (c : Cat) (n : ℕ) : ℕ :=
  rows.foldl
    (fun acc r =>
      if countAvail (r.judgeScores c) > acc then countAvail (r.judgeScores c) else acc) n

/-- The category loop of the judge-count discovery (source lines
684-694): scan categories in order, and `break` as soon as the
accumulated count is nonzero. -/
def numJudgesGo (rows : List CoupleRow) : List Cat → ℕ → ℕ
  | [], n => n
  | c :: cs, n =>
    let n' := catCountFold rows c n
    if n' ≠ 0 then n' else numJudgesGo rows cs n'

/-- `num_judges` as discovered by `build_judge_rankings_for_subset` when
judges are not explicitly enumerated. -/
def discoverNumJudges (rows : List CoupleRow) : ℕ :=
  numJudgesGo rows categoriesList 0

/-- Sum of one judge's scores for one couple across the five categories
(source lines 724-730): out-of-range or absent slots contribute 0. -/
def judgeTotal (r : CoupleRow) (judgeIdx : ℕ) : ℚ :=
  categoriesList.foldl
    (fun acc c =>
      match (r.judgeScores c).getD judgeIdx Option.none with
      | some v => acc + v
      | Option.none => acc) 0

/-- The sort key of `totals.sort(key=lambda x: (-x[1], x[0]))` (source
line 734), as a boolean "may come before": descending judge total,
ties broken by ascending start number compared as a Python string. -/
def totalsLe (a b : String × ℚ) : Bool :=
  decide (b.2 < a.2) || (decide (a.2 = b.2) && pyStrLe a.1 b.1)

/-- The rank-assignment loop (source lines 735-745): walk the sorted
totals with 1-based `position`; a score equal to the previous one
reuses the previous rank, otherwise the rank is the current position
("standard competition" / skip ranking). -/
def assignRanks : List (String × ℚ) → ℕ → Option (ℚ × ℕ) → List (String × ℕ)
  | [], _, _ => []
  | (sn, sc) :: rest, pos, prev =>
    match prev with
    | some (ps, pr) =>
      if sc = ps then (sn, pr) :: assignRanks rest (pos + 1) (some (ps, pr))
      else (sn, pos) :: assignRanks rest (pos + 1) (some (sc, pos))
    | Option.none => (sn, pos) :: assignRanks rest (pos + 1) (some (sc, pos))

/-- One judge's ranking dictionary (source lines 720-747), as an
association list from start number to ordinal rank (1 = best). -/
def judgeRankingFor (rows : List CoupleRow) (judgeIdx : ℕ) : List (String × ℕ) :=
  assignRanks
    (sortLe totalsLe (rows.map (fun r => (r.start_number, judgeTotal r judgeIdx))))
    1 Option.none

/-- `build_judge_rankings_for_subset` (rankings component): one ranking
per discovered judge index; empty when the subset is empty or no judge
count can be discovered (source lines 681-697). -/
def build_judge_rankings_for_subset (rows : List CoupleRow) : List (List (String × ℕ)) :=
  if rows = [] then []
  else if discoverNumJudges rows = 0 then []
  else (List.range (discoverNumJudges rows)).map (judgeRankingFor rows)

/-! ### Claim C6 -/

/-- Per-category maximum of `countAvail` over the rows (the source's
`if count > num_judges` running update, restated with `max`). -/
def catMaxAvail (rows : List CoupleRow) (c : Cat) : ℕ :=
  rows.foldl (fun acc r => max acc (countAvail (r.judgeScores c))) 0

/-- The judge count as claim C6 words it: maximum number of non-absent
scores in any single category score list of any competitor, taken over
all five categories.  Stated from the spec for comparison with the
source's `discoverNumJudges`. -/
def specNumJudgesAllCats (rows : List CoupleRow) : ℕ :=
  (categoriesList.map (catMaxAvail rows)).foldl max 0

/-- What the discovery loop actually computes: the per-row maximum
within the first category, in the fixed scan order, whose maximum is
nonzero (the loop `break`s there), and `0` if every category is
empty. -/
def firstNonzeroCatCount (rows : List CoupleRow) : List Cat → ℕ
  | [] => 0
  | c :: cs =>
    if catMaxAvail rows c ≠ 0 then catMaxAvail rows c
    else firstNonzeroCatCount rows cs

theorem catCountFold_eq_max (rows : List CoupleRow) (c : Cat) :
    ∀ n, catCountFold rows c n =
      rows.foldl (fun acc r => max acc (countAvail (r.judgeScores c))) n := by
  induction rows with
  | nil => intro n; rfl
  | cons r t ih =>
    intro n
    simp only [catCountFold, List.foldl_cons] at ih ⊢
    rw [show (if countAvail (r.judgeScores c) > n then countAvail (r.judgeScores c) else n)
        = max n (countAvail (r.judgeScores c)) from by split <;> omega]
    exact ih _

/-- A single row whose `BBW` list has one available score but whose
`BBM` list has two: the discovery loop stops after `BBW`. -/
def exampleRowC6 : CoupleRow :=
  { start_number := "1", position := 0, teor := Option.none, sum := Option.none,
    total := Option.none, observer := "", competitor_names := "", location := "",
    date := "", round := "", classLabel := "",
    BBW_aggregated := Option.none, BBM_aggregated := Option.none,
    LF_aggregated := Option.none, DF_aggregated := Option.none,
    MI_aggregated := Option.none,
    BBW_judge_scores := [some 1],
    BBM_judge_scores := [some 1, some 2],
    LF_judge_scores := [], DF_judge_scores := [], MI_judge_scores := [] }

/-- **C6, counterexample.**  On a subset whose first category has fewer
non-absent scores than a later one, the code's discovered judge count
(1) differs from the all-categories maximum the claim describes (2). -/
theorem discover_num_judges_not_all_cats_max :
    discoverNumJudges [exampleRowC6] = 1 ∧
    specNumJudgesAllCats [exampleRowC6] = 2 ∧
    discoverNumJudges [exampleRowC6] ≠ specNumJudgesAllCats [exampleRowC6] := by
  refine ⟨?_, ?_, ?_⟩ <;> with_unfolding_all decide

/-- **C6, amended.**  The discovered judge count equals the per-row
maximum of non-absent scores within the *first* category (scan order
BBW, BBM, LF, DF, MI) whose maximum is nonzero — later categories are
never examined — and is 0 when every category is empty. -/
theorem discover_num_judges_first_nonzero_category :
    ∀ rows : List CoupleRow,
      discoverNumJudges rows = firstNonzeroCatCount rows categoriesList := by
  intro rows
  show numJudgesGo rows categoriesList 0 = _
  induction categoriesList with
  | nil => rfl
  | cons c cs ih =>
    show numJudgesGo rows (c :: cs) 0 = _
    rw [numJudgesGo, catCountFold_eq_max]
    by_cases h : rows.foldl (fun acc r => max acc (countAvail (r.judgeScores c))) 0 = 0
    · simp only [firstNonzeroCatCount, catMaxAvail, h, ne_eq, not_true_eq_false,
        if_false, ih]
    · simp only [firstNonzeroCatCount, catMaxAvail, ne_eq, h, not_false_eq_true,
        if_true]

/-! ### Claim C4 -/

theorem totalsLe_iff (a b : String × ℚ) :
    totalsLe a b = true ↔ (b.2 < a.2 ∨ (a.2 = b.2 ∧ pyStrLe a.1 b.1 = true)) := by
  simp [totalsLe, Bool.or_eq_true, Bool.and_eq_true, decide_eq_true_eq]

theorem totalsLe_total (a b : String × ℚ) :
    totalsLe a b = true ∨ totalsLe b a = true := by
  rcases lt_trichotomy a.2 b.2 with h | h | h
  · right; exact (totalsLe_iff b a).mpr (Or.inl h)
  · rcases pyStrLe_total a.1 b.1 with h' | h'
    · left; exact (totalsLe_iff a b).mpr (Or.inr ⟨h, h'⟩)
    · right; exact (totalsLe_iff b a).mpr (Or.inr ⟨h.symm, h'⟩)
  · left; exact (totalsLe_iff a b).mpr (Or.inl h)

theorem totalsLe_trans (a b c : String × ℚ) (h1 : totalsLe a b = true)
    (h2 : totalsLe b c = true) : totalsLe a c = true := by
  rw [totalsLe_iff] at h1 h2 ⊢
  rcases h1 with h1 | ⟨h1e, h1s⟩ <;> rcases h2 with h2 | ⟨h2e, h2s⟩
  · exact Or.inl (lt_trans h2 h1)
  · exact Or.inl (h2e ▸ h1)
  · exact Or.inl (h1e ▸ h2)
  · exact Or.inr ⟨h1e.trans h2e, pyStrLe_trans _ _ _ h1s h2s⟩

theorem filter_eq_nil_of_le {l : List (String × ℚ)} {sc : ℚ}
    (h : ∀ q ∈ l, q.2 ≤ sc) : l.filter (fun q => decide (sc < q.2)) = [] := by
  induction l with
  | nil => rfl
  | cons a t ih =>
    have ha : ¬ sc < a.2 := not_lt.mpr (h a (List.mem_cons_self a t))
    simp only [List.filter_cons, decide_eq_true_eq, ha, if_false, decide_eq_false ha]
    exact ih (fun q hq => h q (List.mem_cons_of_mem a hq))

/-- `(x, m) = (x, n)` from `m = n`; glue for pointwise map arguments. -/
theorem pair_snd_congr {x : String} {m n : ℕ} (h : m = n) :
    ((x, m) : String × ℕ) = (x, n) := by rw [h]

/-- Behaviour of the rank-assignment walk on a score-nonincreasing
list: every element is ranked `pos` plus the number of strictly greater
scores in the list, except that elements still tied with the remembered
previous score reuse the remembered rank. -/
theorem assignRanks_spec :
    ∀ (l : List (String × ℚ)) (pos : ℕ) (prev : Option (ℚ × ℕ)),
      l.Pairwise (fun a b => b.2 ≤ a.2) →
      (∀ ps pr, prev = some (ps, pr) → ∀ p ∈ l, p.2 ≤ ps) →
      assignRanks l pos prev = l.map (fun p => (p.1,
        match prev with
        | some (ps, pr) =>
          if p.2 = ps then pr else pos + (l.filter (fun q => decide (p.2 < q.2))).length
        | Option.none => pos + (l.filter (fun q => decide (p.2 < q.2))).length)) := by
  intro l
  induction l with
  | nil => intro pos prev _ _; rfl
  | cons hd rest ih =>
    intro pos prev hsort hprev
    obtain ⟨sn, sc⟩ := hd
    rcases List.pairwise_cons.mp hsort with ⟨hhead, hrest⟩
    have hzero : ∀ v : ℚ, v = sc →
        (((sn, sc) :: rest).filter (fun q => decide (v < q.2))).length = 0 := by
      intro v hv
      subst hv
      rw [filter_eq_nil_of_le]
      · rfl
      · intro q hq
        rcases List.mem_cons.mp hq with rfl | hq'
        · exact le_refl _
        · exact hhead q hq'
    have hconslen : ∀ v : ℚ, v < sc →
        (((sn, sc) :: rest).filter (fun q => decide (v < q.2))).length =
          (rest.filter (fun q => decide (v < q.2))).length + 1 := by
      intro v hv
      rw [List.filter_cons, if_pos (by simpa using hv)]
      simp [List.length_cons]
    cases prev with
    | none =>
      show (sn, pos) :: assignRanks rest (pos + 1) (some (sc, pos)) = _
      rw [ih (pos + 1) (some (sc, pos)) hrest
        (by intro ps pr hps p hp; cases hps; exact hhead p hp)]
      simp only [List.map_cons, hzero sc rfl, Nat.add_zero]
      congr 1
      refine List.map_congr_left ?_
      intro p hp
      by_cases hps : p.2 = sc
      · rw [if_pos hps]
        exact pair_snd_congr (by rw [hzero p.2 hps]; omega)
      · have hlt : p.2 < sc := lt_of_le_of_ne (hhead p hp) hps
        rw [if_neg hps]
        exact pair_snd_congr (by rw [hconslen p.2 hlt]; omega)
    | some pspr =>
      obtain ⟨ps, pr⟩ := pspr
      have hscps : sc ≤ ps := hprev ps pr rfl (sn, sc) (List.mem_cons_self _ _)
      by_cases heq : sc = ps
      · subst heq
        show ((if sc = sc then
            (sn, pr) :: assignRanks rest (pos + 1) (some (sc, pr))
          else
            (sn, pos) :: assignRanks rest (pos + 1) (some (sc, pos))) :
            List (String × ℕ)) = _
        rw [if_pos rfl]
        rw [ih (pos + 1) (some (sc, pr)) hrest
          (by intro a b hab p hp; cases hab
              exact hprev sc pr rfl p (List.mem_cons_of_mem _ hp))]
        simp only [List.map_cons, if_pos rfl]
        congr 1
        refine List.map_congr_left ?_
        intro p hp
        by_cases hps : p.2 = sc
        · simp only [if_pos hps]
        · have hlt : p.2 < sc := lt_of_le_of_ne (hhead p hp) hps
          simp only [if_neg hps]
          exact pair_snd_congr (by rw [hconslen p.2 hlt]; omega)
      · show ((if sc = ps then
            (sn, pr) :: assignRanks rest (pos + 1) (some (ps, pr))
          else
            (sn, pos) :: assignRanks rest (pos + 1) (some (sc, pos))) :
            List (String × ℕ)) = _
        rw [if_neg heq]
        rw [ih (pos + 1) (some (sc, pos)) hrest
          (by intro a b hab p hp; cases hab; exact hhead p hp)]
        have hsclt : sc < ps := lt_of_le_of_ne hscps heq
        simp only [List.map_cons, if_neg heq, hzero sc rfl, Nat.add_zero]
        congr 1
        refine List.map_congr_left ?_
        intro p hp
        have hple : p.2 ≤ sc := hhead p hp
        have hpps : p.2 ≠ ps := by
          intro h; rw [h] at hple
          exact absurd (lt_of_lt_of_le hsclt hple) (lt_irrefl sc)
        rw [if_neg hpps]
        by_cases hpsc : p.2 = sc
        · rw [if_pos hpsc]
          exact pair_snd_congr (by rw [hzero p.2 hpsc]; omega)
        · have hlt : p.2 < sc := lt_of_le_of_ne hple hpsc
          rw [if_neg hpsc]
          exact pair_snd_congr (by rw [hconslen p.2 hlt]; omega)

theorem lookup_eq_some_of_mem_of_nodup_keys {β : Type} :
    ∀ (l : List (String × β)) (k : String) (v : β),
      (l.map Prod.fst).Nodup → (k, v) ∈ l → List.lookup k l = some v := by
  intro l
  induction l with
  | nil => intro k v _ hmem; cases hmem
  | cons hd tl ih =>
    intro k v hnd hmem
    obtain ⟨a, b⟩ := hd
    rw [List.map_cons] at hnd
    rcases List.nodup_cons.mp hnd with ⟨hna, hnd'⟩
    rcases List.mem_cons.mp hmem with heq | hmem'
    · cases heq
      simp [List.lookup]
    · have hk : (k == a) = false := by
        apply beq_eq_false_iff_ne.mpr
        intro h
        subst h
        exact hna (by simpa using List.mem_map_of_mem Prod.fst hmem')
      simp only [List.lookup, hk]
      exact ih k v hnd' hmem'

/-- A one-couple subset with a single judge score, used to instantiate
the skip-ranking theorem on concrete data. -/
def exampleRowC4 : CoupleRow :=
  { start_number := "7", position := 0, teor := Option.none, sum := Option.none,
    total := Option.none, observer := "", competitor_names := "", location := "",
    date := "", round := "", classLabel := "",
    BBW_aggregated := Option.none, BBM_aggregated := Option.none,
    LF_aggregated := Option.none, DF_aggregated := Option.none,
    MI_aggregated := Option.none,
    BBW_judge_scores := [some 5],
    BBM_judge_scores := [], LF_judge_scores := [], DF_judge_scores := [],
    MI_judge_scores := [] }

/-- **C4.**  Each judge's ranking sorts the subset by descending judge
total with ties broken by ascending start number compared as a Python
string, and assigns standard-competition ("skip") ranks: every
competitor's rank is 1 plus the number of competitors with a strictly
greater total for that judge — so the top total gets rank 1, equal
totals share a rank, and the next distinct total resumes at its 1-based
sorted position. -/
theorem judge_ranking_sorted_and_skip_ranks :
    ∀ (rows : List CoupleRow) (judgeIdx : ℕ),
      (rows.map (fun r => r.start_number)).Nodup →
      ((sortLe totalsLe (rows.map (fun r => (r.start_number, judgeTotal r judgeIdx)))).Pairwise
          (fun a b => b.2 < a.2 ∨ (a.2 = b.2 ∧ pyStrLe a.1 b.1 = true)))
      ∧ (∀ r ∈ rows,
          List.lookup r.start_number (judgeRankingFor rows judgeIdx) =
            some (1 + (rows.filter
              (fun r2 => decide (judgeTotal r judgeIdx < judgeTotal r2 judgeIdx))).length)) := by
  intro rows judgeIdx hnd
  constructor
  · exact (sortLe_sorted totalsLe totalsLe_total totalsLe_trans _).imp
      (fun h => (totalsLe_iff _ _).mp h)
  · intro r hr
    have hperm : List.Perm
        (sortLe totalsLe (rows.map (fun r => (r.start_number, judgeTotal r judgeIdx))))
        (rows.map (fun r => (r.start_number, judgeTotal r judgeIdx))) := sortLe_perm _ _
    have hsorted : (sortLe totalsLe
        (rows.map (fun r => (r.start_number, judgeTotal r judgeIdx)))).Pairwise
        (fun a b : String × ℚ => b.2 ≤ a.2) := by
      refine (sortLe_sorted totalsLe totalsLe_total totalsLe_trans _).imp ?_
      intro a b h
      rcases (totalsLe_iff a b).mp h with h | ⟨h, _⟩
      · exact le_of_lt h
      · exact le_of_eq h.symm
    have hassign' : judgeRankingFor rows judgeIdx =
        (sortLe totalsLe (rows.map (fun r => (r.start_number, judgeTotal r judgeIdx)))).map
          (fun p => (p.1, 1 +
            ((sortLe totalsLe
              (rows.map (fun r => (r.start_number, judgeTotal r judgeIdx)))).filter
                (fun q => decide (p.2 < q.2))).length)) :=
      assignRanks_spec _ 1 Option.none hsorted (by intro ps pr h; cases h)
    have hkeys : ((sortLe totalsLe
        (rows.map (fun r => (r.start_number, judgeTotal r judgeIdx)))).map Prod.fst).Nodup := by
      refine (hperm.map Prod.fst).nodup_iff.mpr ?_
      rw [List.map_map]
      exact hnd
    have hmem : (r.start_number, judgeTotal r judgeIdx) ∈
        sortLe totalsLe (rows.map (fun r => (r.start_number, judgeTotal r judgeIdx))) :=
      hperm.mem_iff.mpr (List.mem_map_of_mem _ hr)
    have hlen : ((sortLe totalsLe
        (rows.map (fun r => (r.start_number, judgeTotal r judgeIdx)))).filter
          (fun q => decide (judgeTotal r judgeIdx < q.2))).length =
        (rows.filter
          (fun r2 => decide (judgeTotal r judgeIdx < judgeTotal r2 judgeIdx))).length := by
      rw [(hperm.filter _).length_eq, List.filter_map, List.length_map]
      rfl
    rw [hassign', ← hlen]
    exact lookup_eq_some_of_mem_of_nodup_keys _ _ _
      (by rw [List.map_map]; exact hkeys) (List.mem_map_of_mem _ hmem)

/-- Closed instantiation of `judge_ranking_sorted_and_skip_ranks` on a
concrete one-couple subset. -/
theorem judge_ranking_sorted_and_skip_ranks_witness :
    List.lookup "7" (judgeRankingFor [exampleRowC4] 0) =
      some (1 + (([exampleRowC4].filter
        (fun r2 => decide (judgeTotal exampleRowC4 0 < judgeTotal r2 0))).length)) :=
  (judge_ranking_sorted_and_skip_ranks [exampleRowC4] 0 (by simp)).2
    exampleRowC4 (List.mem_singleton.mpr rfl)

/-! ## Head-to-head tie resolver (`resolve_ties`, `Main_Dashboard.py`
751-844)

`judge_rankings` is a list of per-judge dictionaries from start number
to ordinal rank; a missing key reads as `float("inf")`.  The
`judge_names` parameter of the source only feeds `num_judges`, which
`resolve_ties` never uses, so it is not modelled here. -/

abbrev Ranking := List (String × ℕ)

/-- Strict comparison of two optional ranks with `none` as
`float("inf")` (a missing rank never wins). -/
def rankLtOpt : Option ℕ → Option ℕ → Bool
  | some a, some b => decide (a < b)
  | some _, Option.none => true
  | Option.none, _ => false

/-- `head_to_head(a, b)` (source lines 759-769). -/
def headToHead (judgeRankings : List Ranking) (a b : String) : ℕ × ℕ :=
  judgeRankings.foldl
    (fun w ranking =>
      if rankLtOpt (ranking.lookup a) (ranking.lookup b) then (w.1 + 1, w.2)
      else if rankLtOpt (ranking.lookup b) (ranking.lookup a) then (w.1, w.2 + 1)
      else w)
    (0, 0)

/-- `pairwise_scores[k] += 1` — the key is always present, having been
initialised for every candidate (source line 787). -/
def bumpScore (m : List (String × ℕ)) (k : String) : List (String × ℕ) :=
  m.map (fun p => if p.1 = k then (p.1, p.2 + 1) else p)

/-- `pairwise_notes[k].append(note)` (keys initialised at line 788). -/
def appendNote (m : List (String × List String)) (k : String) (note : String) :
    List (String × List String) :=
  m.map (fun p => if p.1 = k then (p.1, p.2 ++ [note]) else p)

/-- The ordered index pairs `i < j` of the double loop at lines
790-800. -/
def orderedPairs : List String → List (String × String)
  | [] => []
  | c :: rest => rest.map (fun d => (c, d)) ++ orderedPairs rest

/-- The pairwise scorecard pass (source lines 786-800): one win point
to the strict head-to-head winner of every unordered candidate pair,
plus the running `vs ...` notes for both sides. -/
def pairwiseData (jrs : List Ranking) (candidates : List String) :
    List (String × ℕ) × List (String × List String) :=
  (orderedPairs candidates).foldl
    (fun sn ab =>
      let a := ab.1
      let b := ab.2
      let w := headToHead jrs a b
      let wa := w.1
      let wb := w.2
      let sm := if wa > wb then bumpScore sn.1 a
                else if wb > wa then bumpScore sn.1 b else sn.1
      let nm := appendNote (appendNote sn.2 a (s!"vs {b}: {wa}-{wb}")) b
        (s!"vs {a}: {wb}-{wa}")
      (sm, nm))
    (candidates.map (fun c => (c, 0)), candidates.map (fun c => (c, [])))

/-- `pairwise_scores[c]` lookup (`0` default unreachable: every
candidate is initialised). -/
def scoreOf (sm : List (String × ℕ)) (c : String) : ℕ := (sm.lookup c).getD 0

/-- `"; ".join(pairwise_notes[c])`. -/
def notesOf (nm : List (String × List String)) (c : String) : String :=
  String.intercalate "; " ((nm.lookup c).getD [])

/-- Python `max` over a value list (the engine only calls it on
nonempty lists, where the `0` seed is absorbed). -/
def listMaxNat (l : List ℕ) : ℕ := l.foldl max 0

/-- `tie_info.setdefault(c, note)` (source line 842). -/
def tieSetDefault (m : List (String × String)) (k : String) (v : String) :
    List (String × String) :=
  if (m.lookup k).isSome then m else m ++ [(k, v)]

/-- The recursive core of `resolve_ties`, fuel-indexed so that every
call is structurally recursive (and hence kernel-computable).  The
`Sum.inl` state is a `resolve_ties(candidates)` call; the `Sum.inr`
state is one spin of its `while remaining:` loop (source lines
812-838) with the scorecard fixed.  Zero fuel is unreachable from
`resolve_ties` (fuel sufficiency is proved inside the permutation lemma
`rtStep_flatten_perm` below); tie-info dictionaries are modelled as
association lists, with the disjoint per-iteration updates of the
source appended in order. -/
def rtStep (jrs : List Ranking) :
    ℕ → Sum (List String) (List (String × ℕ) × List (String × List String) × List String) →
      List (List String) × List (String × String)
  | 0, Sum.inl candidates => ([candidates], [])
  | 0, Sum.inr _ => ([], [])
  | fuel + 1, Sum.inl candidates =>
    if candidates.length ≤ 1 then ([candidates], [])
    else
      match candidates with
      | [a, b] =>
        let w := headToHead jrs a b
        let wa := w.1
        let wb := w.2
        if wa > wb then
          ([[a], [b]], [(a, s!"Head-to-head {wa}-{wb}"), (b, s!"Head-to-head {wb}-{wa}")])
        else if wb > wa then
          ([[b], [a]], [(a, s!"Head-to-head {wa}-{wb}"), (b, s!"Head-to-head {wb}-{wa}")])
        else
          ([candidates],
            [(a, s!"Head-to-head tie ({wa}-{wb})"), (b, s!"Head-to-head tie ({wa}-{wb})")])
      | _ =>
        let pw := pairwiseData jrs candidates
        let maxScore := listMaxNat (candidates.map (scoreOf pw.1))
        let top := candidates.filter (fun c => scoreOf pw.1 c = maxScore)
        if top.length = candidates.length then
          ([candidates], candidates.map (fun c => (c, notesOf pw.2 c)))
        else
          let r := rtStep jrs fuel (Sum.inr (pw.1, pw.2, candidates))
          (r.1, candidates.foldl (fun m c => tieSetDefault m c (notesOf pw.2 c)) r.2)
  | fuel + 1, Sum.inr (sm, nm, remaining) =>
    if remaining = [] then ([], [])
    else
      let maxScore := listMaxNat (remaining.map (scoreOf sm))
      let currentTop := remaining.filter (fun c => scoreOf sm c = maxScore)
      if currentTop.length = remaining.length then
        ([remaining], remaining.map (fun c => (c, notesOf nm c)))
      else
        match currentTop with
        | [winner] =>
          let r := rtStep jrs fuel (Sum.inr (sm, nm, remaining.erase winner))
          ([winner] :: r.1, (winner, notesOf nm winner) :: r.2)
        | _ =>
          let sub := rtStep jrs fuel (Sum.inl currentTop)
          let remaining2 := sub.1.flatten.foldl (fun rem c => rem.erase c) remaining
          let r := rtStep jrs fuel (Sum.inr (sm, nm, remaining2))
          (sub.1 ++ r.1, sub.2 ++ r.2)

/-- `resolve_ties(candidates, judge_rankings, judge_names)` (groups and
tie-info components).  `2·n + 1` fuel is enough for `n` candidates:
each loop spin strictly shrinks `remaining` and each recursive
`resolve_ties` call strictly shrinks the candidate set. -/
def resolve_ties (jrs : List Ranking) (candidates : List String) :
    List (List String) × List (String × String) :=
  rtStep jrs (2 * candidates.length + 1) (Sum.inl candidates)

/-! ## Majority placement engine (`determine_majority_placements`,
`Main_Dashboard.py` 846-916) -/

/-- `sum(1 for ranking in judge_rankings if ranking.get(sn, inf) <=
threshold)` (source line 859): judges ranking `sn` at or above the
threshold; a missing rank (infinity) never counts. -/
def countLE (jrs : List Ranking) (sn : String) (t : ℕ) : ℕ :=
  (jrs.filter (fun ranking =>
    match ranking.lookup sn with
    | some rk => decide (rk ≤ t)
    | Option.none => false)).length

/-- The strict-majority test `count > num_judges / 2` of source line
860, with Python's true division read as exact rational division. -/
def qualifies (jrs : List Ranking) (numJudges t : ℕ) (sn : String) : Bool :=
  decide ((countLE jrs sn t : ℚ) > (numJudges : ℚ) / 2)

/-- `candidate_counts` for one threshold (source lines 857-861), as an
association list in `unplaced` order. -/
def candidateCounts (jrs : List Ranking) (numJudges t : ℕ) (unplaced : List String) :
    List (String × ℕ) :=
  unplaced.filterMap (fun sn =>
    if qualifies jrs numJudges t sn then some (sn, countLE jrs sn t) else Option.none)

/-- The `for threshold in range(1, total_couples + 1)` scan (source
line 856): the first threshold whose candidate set is nonempty, if
any. -/
def findThreshold (jrs : List Ranking) (numJudges totalCouples : ℕ)
    (unplaced : List String) : Option ℕ :=
  (List.range' 1 totalCouples).find?
    (fun t => decide (candidateCounts jrs numJudges t unplaced ≠ []))

/-- The key of `sorted(candidate_counts.items(), key=lambda x: (-x[1],
x[0]))` (source line 870): descending qualifying count, ascending start
number. -/
def sortCandLe (a b : String × ℕ) : Bool :=
  decide (b.2 < a.2) || (decide (a.2 = b.2) && pyStrLe a.1 b.1)

/-- Inner state of the `while idx < len(sorted_candidates)` grouping
loop (source lines 871-878): the current `count_value` and the
accumulated `same_count_candidates` (reversed). -/
def chunkGo (cnt : ℕ) (acc : List String) :
    List (String × ℕ) → List (ℕ × List String)
  | [] => [(cnt, acc.reverse)]
  | (sn, c) :: rest =>
    if c = cnt then chunkGo cnt (sn :: acc) rest
    else (cnt, acc.reverse) :: chunkGo c [sn] rest

/-- Split the sorted candidate list into maximal runs of equal
qualifying count, in order. -/
def chunkByCount : List (String × ℕ) → List (ℕ × List String)
  | [] => []
  | (sn, c) :: rest => chunkGo c [sn] rest

/-- Structured content of a placement record's `summary` string: the
source formats either `f"Majority <= {threshold} ({count}/{num_judges}
judges)"` (line 865) or `f"Fallback by average rank ({avg:.2f})"`
(line 909); the numeric payload is kept exact here. -/
inductive Summary where
  | majority (threshold count numJudges : ℕ)
  | fallbackAvg (avg : ℚ)
deriving DecidableEq

/-- A placement record (source lines 882-887 and 906-911).  `tieInfo`
models the `{c: tie_info.get(c) for c in group}` dictionary, so its
values are `Option String`. -/
structure PlacementRecord where
  place : ℕ
  couples : List String
  summary : Option Summary
  tieInfo : List (String × Option String)
deriving DecidableEq

/-- Exact-rational rendering of the fallback note `f"Fallback by
average rank ({avg:.2f})"`; the two-decimal float formatting of the
display string is presentation-only and is rendered as `num/den`
here. -/
def avgNote (avg : ℚ) : String :=
  let n := avg.num
  let d := avg.den
  s!"Fallback by average rank ({n}/{d})"

/-- The `for group in resolved_groups` loop body (source lines
881-892): one record per resolved group at the running place number,
which then advances by the group size. -/
def buildGroupRecords (threshold numJudges : ℕ) (counts : List (String × ℕ))
    (tinfo : List (String × String)) :
    List (List String) → ℕ → List PlacementRecord × ℕ
  | [], nextPlace => ([], nextPlace)
  | group :: rest, nextPlace =>
    let record : PlacementRecord :=
      { place := nextPlace
        couples := group
        summary := group.head?.bind (fun g =>
          (counts.lookup g).map (fun cv => Summary.majority threshold cv numJudges))
        tieInfo := if tinfo = [] then [] else group.map (fun c => (c, tinfo.lookup c)) }
    let r := buildGroupRecords threshold numJudges counts tinfo rest (nextPlace + group.length)
    (record :: r.1, r.2)

/-- Process the equal-count tie groups of one threshold round in
descending-count order (the outer `while idx` loop, lines 871-892):
resolve each chunk and emit its group records. -/
def processChunks (jrs : List Ranking) (threshold numJudges : ℕ)
    (counts : List (String × ℕ)) :
    List (ℕ × List String) → ℕ → List PlacementRecord × ℕ
  | [], nextPlace => ([], nextPlace)
  | chunk :: rest, nextPlace =>
    let rt := resolve_ties jrs chunk.2
    let br := buildGroupRecords threshold numJudges counts rt.2 rt.1 nextPlace
    let r := processChunks jrs threshold numJudges counts rest br.2
    (br.1 ++ r.1, r.2)

/-- `total_rank / num_judges` for the fallback (source lines 899-902):
a missing rank defaults to `len(df_subset) + 1`. -/
def avgRank (jrs : List Ranking) (numJudges dfLen : ℕ) (sn : String) : ℚ :=
  (((jrs.map (fun ranking => (ranking.lookup sn).getD (dfLen + 1))).sum : ℕ) : ℚ) / numJudges

/-- The key of `avg_ranks.sort(key=lambda x: (x[1], x[0]))` (source
line 904): ascending average rank, ascending start number. -/
def avgLe (a b : String × ℚ) : Bool :=
  decide (a.2 < b.2) || (decide (a.2 = b.2) && pyStrLe a.1 b.1)

/-- The fallback emission loop (source lines 905-914): one singleton
record per remaining couple, places advancing by one. -/
def fallbackRecords : List (String × ℚ) → ℕ → List PlacementRecord
  | [], _ => []
  | (sn, avg) :: rest, nextPlace =>
    { place := nextPlace
      couples := [sn]
      summary := some (Summary.fallbackAvg avg)
      tieInfo := [(sn, some (avgNote avg))] } :: fallbackRecords rest (nextPlace + 1)

/-- The `while unplaced:` loop of `determine_majority_placements`,
fuel-indexed (each spin either places at least one couple via the
majority branch or empties `unplaced` via the fallback, so
`total_couples + 1` fuel always suffices — see the claim C1 lemmas). -/
def majLoop (jrs : List Ranking) (numJudges totalCouples : ℕ) :
    ℕ → List String → ℕ → List PlacementRecord
  | 0, _, _ => []
  | fuel + 1, unplaced, nextPlace =>
    if unplaced = [] then []
    else
      match findThreshold jrs numJudges totalCouples unplaced with
      | some t =>
        let counts := candidateCounts jrs numJudges t unplaced
        let chunks := chunkByCount (sortLe sortCandLe counts)
        let pr := processChunks jrs t numJudges counts chunks nextPlace
        let placed := pr.1.foldl (fun acc r => acc ++ r.couples) []
        let unplacedNext := placed.foldl (fun rem c => rem.erase c) unplaced
        pr.1 ++ majLoop jrs numJudges totalCouples fuel unplacedNext pr.2
      | Option.none =>
        let avgs := unplaced.map (fun sn => (sn, avgRank jrs numJudges totalCouples sn))
        let sortedAvgs := sortLe avgLe avgs
        let recs := fallbackRecords sortedAvgs nextPlace
        let unplacedNext := (sortedAvgs.map Prod.fst).foldl (fun rem c => rem.erase c) unplaced
        recs ++ majLoop jrs numJudges totalCouples fuel unplacedNext
          (nextPlace + sortedAvgs.length)

/-- `determine_majority_placements(df_subset, judge_rankings,
judge_names)`: the initial unplaced pool is the subset's start numbers,
`total_couples` (also `len(df_subset)`, used by the fallback's default
rank) is its size, the place counter starts at 1, and `num_judges =
len(judge_names)`. -/
def determine_majority_placements (startNumbers : List String) (jrs : List Ranking)
    (judgeNames : List String) : List PlacementRecord :=
  majLoop jrs judgeNames.length startNumbers.length
    (startNumbers.length + 1) startNumbers 1

/-! ### List plumbing lemmas for the placement proofs -/

theorem foldl_erase_eq_filter :
    ∀ (xs : List String) (rem : List String), rem.Nodup →
      xs.foldl (fun rem c => rem.erase c) rem =
        rem.filter (fun r => decide (r ∉ xs)) := by
  intro xs
  induction xs with
  | nil => intro rem _; simp
  | cons x xs ih =>
    intro rem hnd
    show xs.foldl (fun rem c => rem.erase c) (rem.erase x) = _
    rw [List.Nodup.erase_eq_filter hnd x, ih _ (hnd.filter _), List.filter_filter]
    refine List.filter_congr ?_
    intro a _
    by_cases hax : a = x
    · simp [hax]
    · simp [hax, bne_iff_ne, Ne, hax]

theorem listMaxNat_le_of_mem {l : List ℕ} {x : ℕ} (hx : x ∈ l) : x ≤ listMaxNat l := by
  have h : ∀ (l : List ℕ) (a : ℕ), a ≤ l.foldl max a ∧ ∀ x ∈ l, x ≤ l.foldl max a := by
    intro l
    induction l with
    | nil => intro a; exact ⟨le_refl a, by intro x hx; cases hx⟩
    | cons b t ih =>
      intro a
      rcases ih (max a b) with ⟨h1, h2⟩
      refine ⟨le_trans (le_max_left a b) h1, ?_⟩
      intro x hx
      rcases List.mem_cons.mp hx with rfl | hx'
      · exact le_trans (le_max_right a x) h1
      · exact h2 x hx'
  exact (h l 0).2 x hx

theorem listMaxNat_mem (l : List ℕ) : listMaxNat l ∈ l ∨ listMaxNat l = 0 := by
  have h : ∀ (l : List ℕ) (a : ℕ), l.foldl max a ∈ l ∨ l.foldl max a = a := by
    intro l
    induction l with
    | nil => intro a; exact Or.inr rfl
    | cons b t ih =>
      intro a
      simp only [List.foldl_cons]
      rcases ih (max a b) with h1 | h1
      · exact Or.inl (List.mem_cons_of_mem b h1)
      · rcases Nat.le_total a b with hab | hab
        · rw [h1, max_eq_right hab]
          exact Or.inl (List.mem_cons_self b t)
        · rw [h1, max_eq_left hab]
          exact Or.inr rfl
  rcases h l 0 with h1 | h1
  · exact Or.inl h1
  · exact Or.inr h1

/-- The maximal-score sub-list of a nonempty pool is nonempty: the
maximum is attained (or everything scores zero and the filter keeps
everything). -/
theorem filter_maxScore_ne_nil (sm : List (String × ℕ)) (rem : List String)
    (hne : rem ≠ []) :
    rem.filter (fun c => decide (scoreOf sm c = listMaxNat (rem.map (scoreOf sm)))) ≠ [] := by
  have hmem : ∃ c ∈ rem, scoreOf sm c = listMaxNat (rem.map (scoreOf sm)) := by
    rcases listMaxNat_mem (rem.map (scoreOf sm)) with h | h
    · rcases List.mem_map.mp h with ⟨c, hc, hce⟩
      exact ⟨c, hc, hce⟩
    · rcases rem with _ | ⟨c, t⟩
      · exact absurd rfl hne
      · refine ⟨c, List.mem_cons_self c t, ?_⟩
        rw [h]
        have : scoreOf sm c ≤ listMaxNat ((c :: t).map (scoreOf sm)) :=
          listMaxNat_le_of_mem (List.mem_map_of_mem _ (List.mem_cons_self c t))
        omega
  rcases hmem with ⟨c, hc, hce⟩
  intro hnil
  have : c ∈ rem.filter (fun c => decide (scoreOf sm c = listMaxNat (rem.map (scoreOf sm)))) :=
    List.mem_filter.mpr ⟨hc, by simpa using hce⟩
  rw [hnil] at this
  cases this

/-- Definitional unfolding of the `Sum.inr` (loop) state of `rtStep` on
a nonempty remainder. -/
theorem rtStep_inr_cons (jrs : List Ranking) (k : ℕ)
    (sm : List (String × ℕ)) (nm : List (String × List String))
    (x : String) (xs : List String) :
    rtStep jrs (k + 1) (Sum.inr (sm, nm, x :: xs)) =
      if ((x :: xs).filter
            (fun c => scoreOf sm c = listMaxNat ((x :: xs).map (scoreOf sm)))).length =
          (x :: xs).length then
        ([x :: xs], (x :: xs).map (fun c => (c, notesOf nm c)))
      else
        match (x :: xs).filter
            (fun c => scoreOf sm c = listMaxNat ((x :: xs).map (scoreOf sm))) with
        | [winner] =>
          let r := rtStep jrs k (Sum.inr (sm, nm, (x :: xs).erase winner))
          ([winner] :: r.1, (winner, notesOf nm winner) :: r.2)
        | _ =>
          let sub := rtStep jrs k (Sum.inl ((x :: xs).filter
            (fun c => scoreOf sm c = listMaxNat ((x :: xs).map (scoreOf sm)))))
          let remaining2 := sub.1.flatten.foldl (fun rem c => rem.erase c) (x :: xs)
          let r := rtStep jrs k (Sum.inr (sm, nm, remaining2))
          (sub.1 ++ r.1, sub.2 ++ r.2) := rfl

/-- Definitional unfolding of the `Sum.inl` (`resolve_ties` call) state
of `rtStep` on three or more candidates. -/
theorem rtStep_inl_big (jrs : List Ranking) (k : ℕ) (a b c : String)
    (rest : List String) :
    rtStep jrs (k + 1) (Sum.inl (a :: b :: c :: rest)) =
      (if ((a :: b :: c :: rest).filter (fun x =>
            scoreOf (pairwiseData jrs (a :: b :: c :: rest)).1 x =
              listMaxNat ((a :: b :: c :: rest).map
                (scoreOf (pairwiseData jrs (a :: b :: c :: rest)).1)))).length =
          (a :: b :: c :: rest).length then
        ([a :: b :: c :: rest], (a :: b :: c :: rest).map
          (fun x => (x, notesOf (pairwiseData jrs (a :: b :: c :: rest)).2 x)))
      else
        let r := rtStep jrs k (Sum.inr ((pairwiseData jrs (a :: b :: c :: rest)).1,
          (pairwiseData jrs (a :: b :: c :: rest)).2, a :: b :: c :: rest))
        (r.1, (a :: b :: c :: rest).foldl
          (fun m x => tieSetDefault m x
            (notesOf (pairwiseData jrs (a :: b :: c :: rest)).2 x)) r.2)) := rfl

/-- Joint permutation invariant of the tie resolver: with enough fuel,
the concatenation of the returned groups is a permutation of the input
candidate pool (`Sum.inl`) resp. of the remaining pool (`Sum.inr`). -/
theorem rtStep_flatten_perm (jrs : List Ranking) :
    ∀ fuel : ℕ,
      (∀ cands : List String, cands.Nodup → 2 * cands.length + 1 ≤ fuel →
        List.Perm (rtStep jrs fuel (Sum.inl cands)).1.flatten cands)
      ∧ (∀ (sm : List (String × ℕ)) (nm : List (String × List String))
          (rem : List String), rem.Nodup → 2 * rem.length ≤ fuel →
          List.Perm (rtStep jrs fuel (Sum.inr (sm, nm, rem))).1.flatten rem) := by
  intro fuel
  induction fuel using Nat.strong_induction_on with
  | _ fuel ih =>
    match fuel with
    | 0 =>
      constructor
      · intro cands _ hfuel
        omega
      · intro sm nm rem hnd hfuel
        have : rem = [] := List.length_eq_zero.mp (by omega)
        subst this
        simp [rtStep]
    | (k + 1) =>
      constructor
      · -- a `resolve_ties(candidates)` call
        intro cands hnd hfuel
        match cands with
        | [] => simp [rtStep]
        | [a] => simp [rtStep]
        | [a, b] =>
          by_cases h1 : (headToHead jrs a b).1 > (headToHead jrs a b).2
          · have hr : (rtStep jrs (k + 1) (Sum.inl [a, b])).1 = [[a], [b]] := by
              simp [rtStep, h1]
            rw [hr]
            simp
          · by_cases h2 : (headToHead jrs a b).2 > (headToHead jrs a b).1
            · have hr : (rtStep jrs (k + 1) (Sum.inl [a, b])).1 = [[b], [a]] := by
                simp [rtStep, h1, h2]
              rw [hr]
              simpa using List.Perm.swap a b []
            · have hr : (rtStep jrs (k + 1) (Sum.inl [a, b])).1 = [[a, b]] := by
                simp [rtStep, h1, h2]
              rw [hr]
              simp
        | a :: b :: c :: rest =>
          rw [rtStep_inl_big]
          by_cases htop : ((a :: b :: c :: rest).filter (fun x =>
              scoreOf (pairwiseData jrs (a :: b :: c :: rest)).1 x =
                listMaxNat ((a :: b :: c :: rest).map
                  (scoreOf (pairwiseData jrs (a :: b :: c :: rest)).1)))).length =
              (a :: b :: c :: rest).length
          · rw [if_pos htop]
            simp
          · rw [if_neg htop]
            exact (ih k (by omega)).2 _ _ _ hnd (by omega)
      · -- one spin of the `while remaining:` loop
        intro sm nm rem hnd hfuel
        match rem with
        | [] => simp [rtStep]
        | x :: xs =>
          rw [rtStep_inr_cons]
          by_cases hfull : ((x :: xs).filter
              (fun c => scoreOf sm c = listMaxNat ((x :: xs).map (scoreOf sm)))).length =
              (x :: xs).length
          · rw [if_pos hfull]
            simp
          · rw [if_neg hfull]
            rcases hF : (x :: xs).filter
                (fun c => scoreOf sm c = listMaxNat ((x :: xs).map (scoreOf sm))) with
              _ | ⟨w, ws⟩
            · exact absurd hF (filter_maxScore_ne_nil sm (x :: xs) (by simp))
            · rcases ws with _ | ⟨w2, ws2⟩
              · -- a single outright winner
                have hw : w ∈ x :: xs := by
                  have hmem : w ∈ (x :: xs).filter
                      (fun c => scoreOf sm c = listMaxNat ((x :: xs).map (scoreOf sm))) := by
                    rw [hF]; exact List.mem_singleton.mpr rfl
                  exact (List.mem_filter.mp hmem).1
                have hlen : ((x :: xs).erase w).length = (x :: xs).length - 1 :=
                  List.length_erase_of_mem hw
                have hx1 : (x :: xs).length = xs.length + 1 := by simp
                have hperm := (ih k (by omega)).2 sm nm ((x :: xs).erase w)
                  (hnd.erase w) (by omega)
                show List.Perm ([w] :: (rtStep jrs k
                    (Sum.inr (sm, nm, (x :: xs).erase w))).1).flatten (x :: xs)
                simp only [List.flatten_cons, List.singleton_append]
                exact (hperm.cons w).trans (List.perm_cons_erase hw).symm
              · -- a tied top sub-group: recurse, then continue on the rest
                have hndF : (w :: w2 :: ws2).Nodup := hF ▸ hnd.filter _
                have hltF : (w :: w2 :: ws2).length < (x :: xs).length :=
                  lt_of_le_of_ne (hF ▸ List.length_filter_le _ _) (hF ▸ hfull)
                have hlenF : (w :: w2 :: ws2).length = ws2.length + 2 := by simp
                have hsubperm : List.Perm
                    (rtStep jrs k (Sum.inl (w :: w2 :: ws2))).1.flatten
                    (w :: w2 :: ws2) :=
                  (ih k (by omega)).1 _ hndF (by omega)
                have hrem2 : (rtStep jrs k (Sum.inl (w :: w2 :: ws2))).1.flatten.foldl
                    (fun rem c => rem.erase c) (x :: xs) =
                    (x :: xs).filter (fun c =>
                      !(decide (scoreOf sm c =
                        listMaxNat ((x :: xs).map (scoreOf sm))))) := by
                  rw [foldl_erase_eq_filter _ _ hnd]
                  refine List.filter_congr ?_
                  intro a ha
                  have hmemiff : a ∈ (rtStep jrs k (Sum.inl (w :: w2 :: ws2))).1.flatten ↔
                      scoreOf sm a = listMaxNat ((x :: xs).map (scoreOf sm)) := by
                    rw [hsubperm.mem_iff, ← hF, List.mem_filter]
                    simp [ha]
                  by_cases hpred : scoreOf sm a = listMaxNat ((x :: xs).map (scoreOf sm))
                  · simp [hmemiff, hpred]
                  · simp [hmemiff, hpred]
                have hsplit := (List.filter_append_perm
                  (fun c => decide (scoreOf sm c =
                    listMaxNat ((x :: xs).map (scoreOf sm)))) (x :: xs)).length_eq
                rw [List.length_append, hF] at hsplit
                have hrperm := (ih k (by omega)).2 sm nm
                  ((x :: xs).filter (fun c =>
                    !(decide (scoreOf sm c = listMaxNat ((x :: xs).map (scoreOf sm))))))
                  (hnd.filter _) (by omega)
                show List.Perm ((rtStep jrs k (Sum.inl (w :: w2 :: ws2))).1 ++
                    (rtStep jrs k (Sum.inr (sm, nm,
                      (rtStep jrs k (Sum.inl (w :: w2 :: ws2))).1.flatten.foldl
                        (fun rem c => rem.erase c) (x :: xs)))).1).flatten (x :: xs)
                rw [List.flatten_append, hrem2]
                exact (hsubperm.append hrperm).trans
                  (hF ▸ List.filter_append_perm _ (x :: xs))

/-- The tie resolver's groups exactly repartition its (duplicate-free)
candidate pool. -/
theorem resolve_ties_flatten_perm (jrs : List Ranking) (cands : List String)
    (hnd : cands.Nodup) : List.Perm (resolve_ties jrs cands).1.flatten cands :=
  (rtStep_flatten_perm jrs (2 * cands.length + 1)).1 cands hnd (le_refl _)

/-! ### Plumbing for the majority placement loop -/

theorem chunkGo_flatten (cnt : ℕ) (acc : List String) :
    ∀ l : List (String × ℕ),
      ((chunkGo cnt acc l).map Prod.snd).flatten = acc.reverse ++ l.map Prod.fst := by
  intro l
  induction l generalizing cnt acc with
  | nil => simp [chunkGo]
  | cons p rest ih =>
    obtain ⟨sn, c⟩ := p
    by_cases h : c = cnt
    · simp only [chunkGo, if_pos h, ih cnt (sn :: acc)]
      simp
    · simp only [chunkGo, if_neg h, List.map_cons, List.flatten_cons, ih c [sn]]
      simp

theorem chunkByCount_flatten (l : List (String × ℕ)) :
    ((chunkByCount l).map Prod.snd).flatten = l.map Prod.fst := by
  cases l with
  | nil => rfl
  | cons p rest =>
    obtain ⟨sn, c⟩ := p
    simp [chunkByCount, chunkGo_flatten]

theorem candidateCounts_keys (jrs : List Ranking) (numJudges t : ℕ) :
    ∀ unplaced : List String,
      (candidateCounts jrs numJudges t unplaced).map Prod.fst =
        unplaced.filter (fun sn => qualifies jrs numJudges t sn) := by
  intro unplaced
  induction unplaced with
  | nil => rfl
  | cons sn rest ih =>
    by_cases h : qualifies jrs numJudges t sn
    · simp [candidateCounts, List.filterMap_cons, h, List.filter_cons] at ih ⊢
      exact ih
    · simp [candidateCounts, List.filterMap_cons, h, List.filter_cons] at ih ⊢
      exact ih

theorem buildGroupRecords_spec (threshold numJudges : ℕ) (counts : List (String × ℕ))
    (tinfo : List (String × String)) :
    ∀ (groups : List (List String)) (p : ℕ),
      ((buildGroupRecords threshold numJudges counts tinfo groups p).1).map
          (fun r => r.couples) = groups
      ∧ (buildGroupRecords threshold numJudges counts tinfo groups p).2 =
          p + (groups.map List.length).sum := by
  intro groups
  induction groups with
  | nil => intro p; exact ⟨rfl, by simp [buildGroupRecords]⟩
  | cons g rest ih =>
    intro p
    rcases ih (p + g.length) with ⟨h1, h2⟩
    refine ⟨?_, ?_⟩
    · simp only [buildGroupRecords, List.map_cons, h1]
    · simp only [buildGroupRecords, h2, List.map_cons, List.sum_cons]
      omega

theorem foldl_append_couples :
    ∀ (recs : List PlacementRecord) (acc : List String),
      recs.foldl (fun acc r => acc ++ r.couples) acc =
        acc ++ (recs.map (fun r => r.couples)).flatten := by
  intro recs
  induction recs with
  | nil => intro acc; simp
  | cons r rest ih =>
    intro acc
    simp only [List.foldl_cons, ih (acc ++ r.couples), List.map_cons, List.flatten_cons]
    simp [List.append_assoc]

theorem processChunks_couples_perm (jrs : List Ranking) (threshold numJudges : ℕ)
    (counts : List (String × ℕ)) :
    ∀ (chunks : List (ℕ × List String)) (p : ℕ),
      (∀ ch ∈ chunks, ch.2.Nodup) →
      List.Perm
        (((processChunks jrs threshold numJudges counts chunks p).1.map
          (fun r => r.couples)).flatten)
        ((chunks.map Prod.snd).flatten) := by
  intro chunks
  induction chunks with
  | nil => intro p _; simp [processChunks]
  | cons ch rest ih =>
    intro p hnd
    have h1 := (buildGroupRecords_spec threshold numJudges counts
      (resolve_ties jrs ch.2).2 (resolve_ties jrs ch.2).1 p).1
    have hres := resolve_ties_flatten_perm jrs ch.2 (hnd ch (List.mem_cons_self _ _))
    have hr := ih (buildGroupRecords threshold numJudges counts
      (resolve_ties jrs ch.2).2 (resolve_ties jrs ch.2).1 p).2
      (fun c hc => hnd c (List.mem_cons_of_mem _ hc))
    simp only [processChunks, List.map_cons, List.flatten_cons, List.map_append,
      List.flatten_append, h1]
    exact hres.append hr

theorem filter_eq_nil_of_false {α : Type} (p : α → Bool) :
    ∀ l : List α, (∀ a ∈ l, p a = false) → l.filter p = [] := by
  intro l
  induction l with
  | nil => intro _; rfl
  | cons a t ih =>
    intro h
    rw [List.filter_cons, if_neg (by simp [h a (List.mem_cons_self a t)])]
    exact ih (fun x hx => h x (List.mem_cons_of_mem a hx))

theorem fallbackRecords_couples :
    ∀ (l : List (String × ℚ)) (p : ℕ),
      (fallbackRecords l p).map (fun r => r.couples) = l.map (fun q => [q.1]) := by
  intro l
  induction l with
  | nil => intro p; rfl
  | cons q rest ih =>
    intro p
    obtain ⟨sn, avg⟩ := q
    simp only [fallbackRecords, List.map_cons, ih (p + 1)]

theorem flatten_map_singleton {α β : Type} (f : α → β) :
    ∀ l : List α, ((l.map (fun a => [f a])).flatten) = l.map f := by
  intro l
  induction l with
  | nil => rfl
  | cons a rest ih => simp [ih]

theorem majLoop_nil (jrs : List Ranking) (numJudges totalCouples : ℕ) :
    ∀ (fuel p : ℕ), majLoop jrs numJudges totalCouples fuel [] p = [] := by
  intro fuel p
  cases fuel with
  | zero => rfl
  | succ k => simp [majLoop]

/-- Core partition invariant of the placement loop: with enough fuel,
the `couples` lists of the produced records repartition the unplaced
pool exactly. -/
theorem majLoop_couples_perm (jrs : List Ranking) (numJudges totalCouples : ℕ) :
    ∀ (fuel : ℕ) (unplaced : List String) (p : ℕ),
      unplaced.Nodup → unplaced.length + 1 ≤ fuel →
      List.Perm
        ((majLoop jrs numJudges totalCouples fuel unplaced p).map
          (fun r => r.couples)).flatten
        unplaced := by
  intro fuel
  induction fuel with
  | zero => intro unplaced p _ hfuel; omega
  | succ k ih =>
    intro unplaced p hnd hfuel
    by_cases hemp : unplaced = []
    · subst hemp
      simp [majLoop]
    · cases hfind : findThreshold jrs numJudges totalCouples unplaced with
      | some t =>
        simp only [majLoop]
        rw [if_neg hemp, hfind]
        set C := candidateCounts jrs numJudges t unplaced with hC
        set S := sortLe sortCandLe C with hS
        set chunks := chunkByCount S with hchunks
        set pr := processChunks jrs t numJudges C chunks p with hpr
        have hCne : C ≠ [] := by
          have h := List.find?_some hfind
          rw [← hC] at h
          simpa using h
        have hkeys : C.map Prod.fst =
            unplaced.filter (fun sn => qualifies jrs numJudges t sn) := by
          rw [hC]; exact candidateCounts_keys jrs numJudges t unplaced
        have hpermSort : List.Perm S C := sortLe_perm sortCandLe C
        have hchunkflat : (chunks.map Prod.snd).flatten = S.map Prod.fst := by
          rw [hchunks]; exact chunkByCount_flatten S
        have hkeysNodup : (S.map Prod.fst).Nodup := by
          refine (hpermSort.map Prod.fst).nodup_iff.mpr ?_
          rw [hkeys]
          exact hnd.filter _
        have hchunksNodup : ∀ ch ∈ chunks, ch.2.Nodup := by
          have hflatN : ((chunks.map Prod.snd).flatten).Nodup := by
            rw [hchunkflat]; exact hkeysNodup
          intro ch hch
          exact (List.nodup_flatten.mp hflatN).1 ch.2 (List.mem_map_of_mem Prod.snd hch)
        have hproc := processChunks_couples_perm jrs t numJudges C chunks p hchunksNodup
        have hkeysPerm : List.Perm ((chunks.map Prod.snd).flatten)
            (unplaced.filter (fun sn => qualifies jrs numJudges t sn)) := by
          rw [hchunkflat, ← hkeys]
          exact hpermSort.map Prod.fst
        have hplacedPerm : List.Perm ((pr.1.map (fun r => r.couples)).flatten)
            (unplaced.filter (fun sn => qualifies jrs numJudges t sn)) :=
          hproc.trans hkeysPerm
        have hplacedEq : pr.1.foldl (fun acc r => acc ++ r.couples) [] =
            (pr.1.map (fun r => r.couples)).flatten := by
          simpa using foldl_append_couples pr.1 []
        have hUnext : (pr.1.foldl (fun acc r => acc ++ r.couples) []).foldl
            (fun rem c => rem.erase c) unplaced =
            unplaced.filter (fun c => !(qualifies jrs numJudges t c)) := by
          rw [hplacedEq, foldl_erase_eq_filter _ _ hnd]
          refine List.filter_congr ?_
          intro a ha
          have hmemiff : a ∈ (pr.1.map (fun r => r.couples)).flatten ↔
              qualifies jrs numJudges t a = true := by
            rw [hplacedPerm.mem_iff, List.mem_filter]
            simp [ha]
          by_cases hq : qualifies jrs numJudges t a
          · simp [hmemiff, hq]
          · simp [hmemiff, hq]
        have hsplitlen := (List.filter_append_perm
          (fun sn => qualifies jrs numJudges t sn) unplaced).length_eq
        rw [List.length_append] at hsplitlen
        have hqualNe : unplaced.filter (fun sn => qualifies jrs numJudges t sn) ≠ [] := by
          rw [← hkeys]
          intro h
          exact hCne (List.map_eq_nil_iff.mp h)
        have hquallen : 1 ≤ (unplaced.filter
            (fun sn => qualifies jrs numJudges t sn)).length :=
          List.length_pos.mpr hqualNe
        have hih := ih (unplaced.filter (fun c => !(qualifies jrs numJudges t c))) pr.2
          (hnd.filter _) (by omega)
        simp only [List.map_append, List.flatten_append]
        rw [hUnext]
        exact (hplacedPerm.append hih).trans
          (List.filter_append_perm (fun sn => qualifies jrs numJudges t sn) unplaced)
      | none =>
        simp only [majLoop]
        rw [if_neg hemp, hfind]
        set A := unplaced.map
          (fun sn => (sn, avgRank jrs numJudges totalCouples sn)) with hA
        set SA := sortLe avgLe A with hSA
        have hSAperm : List.Perm (SA.map Prod.fst) unplaced := by
          have h := (sortLe_perm avgLe A).map Prod.fst
          rw [← hSA] at h
          refine h.trans ?_
          rw [hA, List.map_map]
          have hcomp : (Prod.fst ∘ fun sn : String =>
              (sn, avgRank jrs numJudges totalCouples sn)) = id := rfl
          rw [hcomp, List.map_id]
        have hUnil : (SA.map Prod.fst).foldl (fun rem c => rem.erase c) unplaced = [] := by
          rw [foldl_erase_eq_filter _ _ hnd]
          apply filter_eq_nil_of_false
          intro a ha
          have hmem : a ∈ SA.map Prod.fst := hSAperm.mem_iff.mpr ha
          simp [hmem]
        simp only [List.map_append, List.flatten_append]
        rw [hUnil, majLoop_nil]
        simp only [List.map_nil, List.flatten_nil, List.append_nil]
        rw [fallbackRecords_couples, flatten_map_singleton]
        exact hSAperm

/-- **C1.**  For every non-empty, duplicate-free competitor set with at
least one judge, the `couples` lists of the placement records produced
by one `determine_majority_placements` run repartition the input start
numbers exactly: no start number appears in two records and none is
omitted (the flattened couples lists are a permutation of the input). -/
theorem placement_couples_partition :
    ∀ (startNumbers : List String) (jrs : List Ranking) (judgeNames : List String),
      startNumbers ≠ [] → judgeNames ≠ [] → startNumbers.Nodup →
      List.Perm
        (((determine_majority_placements startNumbers jrs judgeNames).map
          (fun r => r.couples)).flatten)
        startNumbers := by
  intro sns jrs names _ _ hnd
  exact majLoop_couples_perm jrs names.length sns.length (sns.length + 1) sns 1 hnd
    (le_refl _)

/-- Closed instantiation of `placement_couples_partition` on the
2-judge, 2-couple scenario. -/
theorem placement_couples_partition_witness :
    List.Perm
      (((determine_majority_placements ["1", "2"]
        [[("1", 1), ("2", 2)], [("1", 2), ("2", 1)]] ["J1", "J2"]).map
          (fun r => r.couples)).flatten)
      ["1", "2"] :=
  placement_couples_partition ["1", "2"] [[("1", 1), ("2", 2)], [("1", 2), ("2", 1)]]
    ["J1", "J2"] (by with_unfolding_all decide) (by with_unfolding_all decide)
    (by with_unfolding_all decide)

/-! ### Place numbering (claim C3) -/

/-- "The places chain from `p`": the first record's place is `p` and
each next record's place advances by the previous record's group
size. -/
def chainFrom : ℕ → List PlacementRecord → Prop
  | _, [] => True
  | p, r :: rs => r.place = p ∧ chainFrom (p + r.couples.length) rs

theorem chainFrom_append :
    ∀ (l1 l2 : List PlacementRecord) (p : ℕ),
      chainFrom p l1 →
      chainFrom (p + (l1.map (fun r => r.couples.length)).sum) l2 →
      chainFrom p (l1 ++ l2) := by
  intro l1
  induction l1 with
  | nil => intro l2 p _ h2; simpa using h2
  | cons r rs ih =>
    intro l2 p h1 h2
    rcases h1 with ⟨hp, hc⟩
    refine ⟨hp, ?_⟩
    apply ih l2 (p + r.couples.length) hc
    have harith : p + r.couples.length + (rs.map (fun r => r.couples.length)).sum =
        p + ((r :: rs).map (fun r => r.couples.length)).sum := by
      simp only [List.map_cons, List.sum_cons]
      omega
    rw [harith]
    exact h2

theorem buildGroupRecords_chain (threshold numJudges : ℕ) (counts : List (String × ℕ))
    (tinfo : List (String × String)) :
    ∀ (groups : List (List String)) (p : ℕ),
      chainFrom p (buildGroupRecords threshold numJudges counts tinfo groups p).1 := by
  intro groups
  induction groups with
  | nil => intro p; trivial
  | cons g rest ih => intro p; exact ⟨rfl, ih (p + g.length)⟩

theorem buildGroupRecords_len_sum (threshold numJudges : ℕ) (counts : List (String × ℕ))
    (tinfo : List (String × String)) (groups : List (List String)) (p : ℕ) :
    (buildGroupRecords threshold numJudges counts tinfo groups p).2 =
      p + (((buildGroupRecords threshold numJudges counts tinfo groups p).1).map
        (fun r => r.couples.length)).sum := by
  rcases buildGroupRecords_spec threshold numJudges counts tinfo groups p with ⟨h1, h2⟩
  have hmap : ((buildGroupRecords threshold numJudges counts tinfo groups p).1).map
      (fun r => r.couples.length) = groups.map List.length := by
    have := congrArg (List.map List.length) h1
    rwa [List.map_map] at this
  rw [hmap, h2]

theorem processChunks_chain (jrs : List Ranking) (threshold numJudges : ℕ)
    (counts : List (String × ℕ)) :
    ∀ (chunks : List (ℕ × List String)) (p : ℕ),
      chainFrom p (processChunks jrs threshold numJudges counts chunks p).1
      ∧ (processChunks jrs threshold numJudges counts chunks p).2 =
          p + (((processChunks jrs threshold numJudges counts chunks p).1).map
            (fun r => r.couples.length)).sum := by
  intro chunks
  induction chunks with
  | nil => intro p; exact ⟨trivial, by simp [processChunks]⟩
  | cons ch rest ih =>
    intro p
    rcases ih (buildGroupRecords threshold numJudges counts
      (resolve_ties jrs ch.2).2 (resolve_ties jrs ch.2).1 p).2 with ⟨ihc, ihs⟩
    constructor
    · refine chainFrom_append _ _ _
        (buildGroupRecords_chain threshold numJudges counts
          (resolve_ties jrs ch.2).2 (resolve_ties jrs ch.2).1 p) ?_
      rw [← buildGroupRecords_len_sum]
      exact ihc
    · simp only [processChunks]
      rw [ihs, List.map_append, List.sum_append, buildGroupRecords_len_sum]
      omega

theorem fallbackRecords_chain :
    ∀ (l : List (String × ℚ)) (p : ℕ), chainFrom p (fallbackRecords l p) := by
  intro l
  induction l with
  | nil => intro p; trivial
  | cons q rest ih =>
    intro p
    obtain ⟨sn, avg⟩ := q
    exact ⟨rfl, ih (p + 1)⟩

theorem fallbackRecords_len_sum :
    ∀ (l : List (String × ℚ)) (p : ℕ),
      ((fallbackRecords l p).map (fun r => r.couples.length)).sum = l.length := by
  intro l
  induction l with
  | nil => intro p; rfl
  | cons q rest ih =>
    intro p
    obtain ⟨sn, avg⟩ := q
    simp only [fallbackRecords, List.map_cons, List.sum_cons, ih (p + 1),
      List.length_cons, List.length_nil]
    omega

theorem majLoop_chain (jrs : List Ranking) (numJudges totalCouples : ℕ) :
    ∀ (fuel : ℕ) (unplaced : List String) (p : ℕ),
      chainFrom p (majLoop jrs numJudges totalCouples fuel unplaced p) := by
  intro fuel
  induction fuel with
  | zero => intro unplaced p; trivial
  | succ k ih =>
    intro unplaced p
    by_cases hemp : unplaced = []
    · subst hemp
      simp only [majLoop, if_pos rfl]
      trivial
    · cases hfind : findThreshold jrs numJudges totalCouples unplaced with
      | some t =>
        simp only [majLoop]
        rw [if_neg hemp, hfind]
        refine chainFrom_append _ _ _ (processChunks_chain jrs t numJudges _ _ p).1 ?_
        rw [← (processChunks_chain jrs t numJudges _ _ p).2]
        exact ih _ _
      | none =>
        simp only [majLoop]
        rw [if_neg hemp, hfind]
        refine chainFrom_append _ _ _ (fallbackRecords_chain _ p) ?_
        rw [fallbackRecords_len_sum]
        have hlen : (sortLe avgLe (unplaced.map
            (fun sn => (sn, avgRank jrs numJudges totalCouples sn)))).length =
            unplaced.length := by
          rw [(sortLe_perm avgLe _).length_eq, List.length_map]
        rw [hlen]
        have hlen2 : (sortLe avgLe (unplaced.map
            (fun sn => (sn, avgRank jrs numJudges totalCouples sn)))).length =
            unplaced.length := hlen
        exact hlen2 ▸ ih _ _

theorem chainFrom_places :
    ∀ (l : List PlacementRecord) (p : ℕ), chainFrom p l →
      (∀ h0 : 0 < l.length, (l.get ⟨0, h0⟩).place = p) ∧
      (∀ (i : ℕ) (h : i + 1 < l.length),
        (l.get ⟨i + 1, h⟩).place =
          (l.get ⟨i, Nat.lt_of_succ_lt h⟩).place +
            (l.get ⟨i, Nat.lt_of_succ_lt h⟩).couples.length) := by
  intro l
  induction l with
  | nil =>
    intro p _
    exact ⟨fun h0 => absurd h0 (by simp), fun i h => absurd h (by simp)⟩
  | cons r rs ih =>
    intro p hchain
    rcases hchain with ⟨hp, hc⟩
    constructor
    · intro h0
      exact hp
    · intro i h
      cases i with
      | zero =>
        have h0 : 0 < rs.length := by simpa using h
        have hfirst := (ih (p + r.couples.length) hc).1 h0
        show (rs.get ⟨0, h0⟩).place = _
        rw [hfirst]
        show _ = r.place + r.couples.length
        rw [hp]
      | succ j =>
        have h' : j + 1 < rs.length := by simpa using h
        have hstep := (ih (p + r.couples.length) hc).2 j h'
        simpa using hstep

/-- **C3.**  In every placement run the first record (when one exists)
carries place 1, and each subsequent record's place equals the previous
record's place plus the size of the previous record's couple group —
tied groups of size `k` make the numbering skip ahead by `k`.  This is
proved for the whole loop, majority rounds and average-rank fallback
alike. -/
theorem placement_places_start_at_one_and_advance_by_group_size :
    ∀ (startNumbers : List String) (jrs : List Ranking) (judgeNames : List String),
      (∀ h0 : 0 < (determine_majority_placements startNumbers jrs judgeNames).length,
        ((determine_majority_placements startNumbers jrs judgeNames).get ⟨0, h0⟩).place = 1)
      ∧ (∀ (i : ℕ)
          (h : i + 1 < (determine_majority_placements startNumbers jrs judgeNames).length),
          ((determine_majority_placements startNumbers jrs judgeNames).get
            ⟨i + 1, h⟩).place =
            ((determine_majority_placements startNumbers jrs judgeNames).get
              ⟨i, Nat.lt_of_succ_lt h⟩).place +
              ((determine_majority_placements startNumbers jrs judgeNames).get
                ⟨i, Nat.lt_of_succ_lt h⟩).couples.length) :=
  fun sns jrs names =>
    chainFrom_places _ 1
      (majLoop_chain jrs names.length sns.length (sns.length + 1) sns 1)

/-- Closed instantiation of
`placement_places_start_at_one_and_advance_by_group_size`: the first
record of the concrete 2-judge scenario carries place 1. -/
theorem placement_places_start_at_one_witness :
    ((determine_majority_placements ["1", "2"]
      [[("1", 1), ("2", 2)], [("1", 2), ("2", 1)]] ["J1", "J2"]).get
        ⟨0, by with_unfolding_all decide⟩).place = 1 :=
  (placement_places_start_at_one_and_advance_by_group_size ["1", "2"]
    [[("1", 1), ("2", 2)], [("1", 2), ("2", 1)]] ["J1", "J2"]).1 _

/-! ### Claim C7 -/

theorem orderedPairs_mem :
    ∀ (l : List String) (a b : String), (a, b) ∈ orderedPairs l → a ∈ l ∧ b ∈ l := by
  intro l
  induction l with
  | nil => intro a b h; cases h
  | cons x rest ih =>
    intro a b h
    rcases List.mem_append.mp h with h1 | h2
    · rcases List.mem_map.mp h1 with ⟨d, hd, heq⟩
      cases heq
      exact ⟨List.mem_cons_self _ _, List.mem_cons_of_mem _ hd⟩
    · rcases ih a b h2 with ⟨ha, hb⟩
      exact ⟨List.mem_cons_of_mem _ ha, List.mem_cons_of_mem _ hb⟩

theorem pairwiseData_fst_const (jrs : List Ranking) :
    ∀ (ps : List (String × String))
      (init : List (String × ℕ) × List (String × List String)),
      (∀ ab ∈ ps, (headToHead jrs ab.1 ab.2).1 = (headToHead jrs ab.1 ab.2).2) →
      (ps.foldl
        (fun sn ab =>
          let a := ab.1
          let b := ab.2
          let w := headToHead jrs a b
          let wa := w.1
          let wb := w.2
          let sm := if wa > wb then bumpScore sn.1 a
                    else if wb > wa then bumpScore sn.1 b else sn.1
          let nm := appendNote (appendNote sn.2 a (s!"vs {b}: {wa}-{wb}")) b
            (s!"vs {a}: {wb}-{wa}")
          (sm, nm)) init).1 = init.1 := by
  intro ps
  induction ps with
  | nil => intro init _; rfl
  | cons ab rest ih =>
    intro init h
    have hw : (headToHead jrs ab.1 ab.2).1 = (headToHead jrs ab.1 ab.2).2 :=
      h ab (List.mem_cons_self _ _)
    simp only [List.foldl_cons]
    rw [ih _ (fun x hx => h x (List.mem_cons_of_mem _ hx))]
    simp [hw]

theorem scoreOf_map_zero :
    ∀ (cands : List String) (c : String),
      scoreOf (cands.map (fun x => (x, 0))) c = 0 := by
  intro cands
  induction cands with
  | nil => intro c; rfl
  | cons x rest ih =>
    intro c
    cases hbe : (c == x) with
    | true => simp [scoreOf, List.lookup, hbe]
    | false =>
      have := ih c
      simp only [scoreOf, List.map_cons, List.lookup, hbe] at this ⊢
      exact this

theorem listMaxNat_eq_zero {l : List ℕ} (h : ∀ x ∈ l, x = 0) : listMaxNat l = 0 := by
  rcases listMaxNat_mem l with hm | hm
  · exact h _ hm
  · exact hm

/-- **C7.**  `resolve_ties` never fails and collapses any fully
symmetric candidate set — one where every pairwise head-to-head is an
exact split — into a single group containing all candidates; and the
2-judge, 2-couple scenario in which judge 1 prefers couple "1" and
judge 2 prefers couple "2" produces exactly one placement record, at
place 1, holding both couples (its group size exceeds 1, which is what
the presentation layer renders as a tie). -/
theorem resolve_ties_full_tie_and_symmetric_run :
    (∀ (jrs : List Ranking) (candidates : List String),
      (∀ a ∈ candidates, ∀ b ∈ candidates,
        (headToHead jrs a b).1 = (headToHead jrs a b).2) →
      (resolve_ties jrs candidates).1 = [candidates])
    ∧ ((determine_majority_placements ["1", "2"]
        [[("1", 1), ("2", 2)], [("1", 2), ("2", 1)]] ["J1", "J2"]).map
          (fun r => (r.place, r.couples)) = [(1, ["1", "2"])])
    ∧ (∀ r ∈ determine_majority_placements ["1", "2"]
        [[("1", 1), ("2", 2)], [("1", 2), ("2", 1)]] ["J1", "J2"],
        1 < r.couples.length) := by
  refine ⟨?_, by with_unfolding_all decide, by with_unfolding_all decide⟩
  intro jrs cands h
  match cands with
  | [] => rfl
  | [a] => rfl
  | [a, b] =>
    have hw := h a (by simp) b (by simp)
    have h1 : ¬ (headToHead jrs a b).1 > (headToHead jrs a b).2 := by omega
    have h2 : ¬ (headToHead jrs a b).2 > (headToHead jrs a b).1 := by omega
    simp [resolve_ties, rtStep, h1, h2]
  | a :: b :: c :: rest =>
    have hsm : (pairwiseData jrs (a :: b :: c :: rest)).1 =
        (a :: b :: c :: rest).map (fun x => (x, 0)) := by
      refine pairwiseData_fst_const jrs _ _ ?_
      intro ab hab
      rcases orderedPairs_mem _ _ _ hab with ⟨ha, hb⟩
      exact h _ ha _ hb
    have hscore : ∀ x, scoreOf (pairwiseData jrs (a :: b :: c :: rest)).1 x = 0 := by
      intro x
      rw [hsm]
      exact scoreOf_map_zero _ x
    have hmax : listMaxNat ((a :: b :: c :: rest).map
        (scoreOf (pairwiseData jrs (a :: b :: c :: rest)).1)) = 0 := by
      apply listMaxNat_eq_zero
      intro x hx
      rcases List.mem_map.mp hx with ⟨y, _, rfl⟩
      exact hscore y
    have hfilter : (a :: b :: c :: rest).filter (fun x =>
        scoreOf (pairwiseData jrs (a :: b :: c :: rest)).1 x =
          listMaxNat ((a :: b :: c :: rest).map
            (scoreOf (pairwiseData jrs (a :: b :: c :: rest)).1))) =
        a :: b :: c :: rest := by
      apply List.filter_eq_self.mpr
      intro x _
      simp only [decide_eq_true_eq]
      rw [hscore x, hmax]
    show (rtStep jrs (2 * (a :: b :: c :: rest).length + 1)
      (Sum.inl (a :: b :: c :: rest))).1 = _
    rw [rtStep_inl_big, if_pos (by rw [hfilter])]

/-- Closed instantiation of the universal part of
`resolve_ties_full_tie_and_symmetric_run`: with no judge rankings at
all, every head-to-head is 0-0 and three candidates collapse to one
tied group. -/
theorem resolve_ties_full_tie_witness :
    (resolve_ties [] ["1", "2", "3"]).1 = [["1", "2", "3"]] :=
  resolve_ties_full_tie_and_symmetric_run.1 [] ["1", "2", "3"]
    (by with_unfolding_all decide)

/-! ### Claim C5 -/

theorem avgLe_iff (a b : String × ℚ) :
    avgLe a b = true ↔ (a.2 < b.2 ∨ (a.2 = b.2 ∧ pyStrLe a.1 b.1 = true)) := by
  simp [avgLe, Bool.or_eq_true, Bool.and_eq_true, decide_eq_true_eq]

theorem avgLe_total (a b : String × ℚ) : avgLe a b = true ∨ avgLe b a = true := by
  rcases lt_trichotomy a.2 b.2 with h | h | h
  · left; exact (avgLe_iff a b).mpr (Or.inl h)
  · rcases pyStrLe_total a.1 b.1 with h' | h'
    · left; exact (avgLe_iff a b).mpr (Or.inr ⟨h, h'⟩)
    · right; exact (avgLe_iff b a).mpr (Or.inr ⟨h.symm, h'⟩)
  · right; exact (avgLe_iff b a).mpr (Or.inl h)

theorem avgLe_trans (a b c : String × ℚ) (h1 : avgLe a b = true)
    (h2 : avgLe b c = true) : avgLe a c = true := by
  rw [avgLe_iff] at h1 h2 ⊢
  rcases h1 with h1 | ⟨h1e, h1s⟩ <;> rcases h2 with h2 | ⟨h2e, h2s⟩
  · exact Or.inl (lt_trans h1 h2)
  · exact Or.inl (h2e ▸ h1)
  · exact Or.inl (h1e ▸ h2)
  · exact Or.inr ⟨h1e.trans h2e, pyStrLe_trans _ _ _ h1s h2s⟩

theorem fallbackRecords_shape :
    ∀ (l : List (String × ℚ)) (p : ℕ), ∀ r ∈ fallbackRecords l p,
      ∃ sn avg, r.couples = [sn] ∧ r.summary = some (Summary.fallbackAvg avg) := by
  intro l
  induction l with
  | nil => intro p r hr; cases hr
  | cons q rest ih =>
    intro p r hr
    obtain ⟨sn, avg⟩ := q
    rcases List.mem_cons.mp hr with rfl | hr'
    · exact ⟨sn, avg, rfl, rfl⟩
    · exact ih (p + 1) r hr'

/-- **C5, counterexample.**  A degenerate run in which no majority
threshold ever qualifies anyone (no judge rankings at all, one judge):
both competitors have exactly equal mean ordinal rank, yet the engine
emits two separate singleton fallback records at places 1 and 2 — no
record shares the two equal-mean competitors, contradicting the claim
that exact mean-rank ties are placed together in one record. -/
theorem fallback_equal_avg_not_shared_counterexample :
    avgRank [] 1 2 "1" = avgRank [] 1 2 "2"
    ∧ (determine_majority_placements ["1", "2"] [] ["J"]).map
        (fun r => (r.place, r.couples, r.summary)) =
      [(1, ["1"], some (Summary.fallbackAvg 0)),
       (2, ["2"], some (Summary.fallbackAvg 0))]
    ∧ ¬ ∃ r ∈ determine_majority_placements ["1", "2"] [] ["J"],
        "1" ∈ r.couples ∧ "2" ∈ r.couples := by
  refine ⟨?_, ?_, ?_⟩
  · with_unfolding_all decide
  · with_unfolding_all decide
  · with_unfolding_all decide

/-- **C5, amended.**  When no threshold up to the competitor count
produces a qualifier, the remaining competitors are ordered by mean
ordinal rank across judges ascending (ties broken by ascending start
number), and each is emitted in its *own* singleton record annotated as
a rank-average fallback; competitors with exactly equal mean ranks
occupy consecutive distinct places instead of sharing one record. -/
theorem fallback_sorted_singleton_records :
    ∀ (jrs : List Ranking) (numJudges totalCouples : ℕ) (unplaced : List String)
      (nextPlace fuel : ℕ),
      unplaced.Nodup →
      findThreshold jrs numJudges totalCouples unplaced = Option.none →
      majLoop jrs numJudges totalCouples (fuel + 1) unplaced nextPlace =
        fallbackRecords (sortLe avgLe (unplaced.map
          (fun sn => (sn, avgRank jrs numJudges totalCouples sn)))) nextPlace
      ∧ (sortLe avgLe (unplaced.map
          (fun sn => (sn, avgRank jrs numJudges totalCouples sn)))).Pairwise
          (fun a b => a.2 < b.2 ∨ (a.2 = b.2 ∧ pyStrLe a.1 b.1 = true))
      ∧ (∀ r ∈ fallbackRecords (sortLe avgLe (unplaced.map
          (fun sn => (sn, avgRank jrs numJudges totalCouples sn)))) nextPlace,
          ∃ sn avg, r.couples = [sn] ∧ r.summary = some (Summary.fallbackAvg avg)) := by
  intro jrs numJudges totalCouples unplaced nextPlace fuel hnd hfind
  refine ⟨?_, ?_, fallbackRecords_shape _ _⟩
  · by_cases hemp : unplaced = []
    · subst hemp
      simp [majLoop, sortLe, fallbackRecords]
    · simp only [majLoop]
      rw [if_neg hemp, hfind]
      set A := unplaced.map
        (fun sn => (sn, avgRank jrs numJudges totalCouples sn)) with hA
      set SA := sortLe avgLe A with hSA
      have hSAperm : List.Perm (SA.map Prod.fst) unplaced := by
        have h := (sortLe_perm avgLe A).map Prod.fst
        rw [← hSA] at h
        refine h.trans ?_
        rw [hA, List.map_map]
        have hcomp : (Prod.fst ∘ fun sn : String =>
            (sn, avgRank jrs numJudges totalCouples sn)) = id := rfl
        rw [hcomp, List.map_id]
      have hUnil : (SA.map Prod.fst).foldl (fun rem c => rem.erase c) unplaced = [] := by
        rw [foldl_erase_eq_filter _ _ hnd]
        apply filter_eq_nil_of_false
        intro a ha
        have hmem : a ∈ SA.map Prod.fst := hSAperm.mem_iff.mpr ha
        simp [hmem]
      rw [hUnil, majLoop_nil, List.append_nil]
  · exact (sortLe_sorted avgLe avgLe_total avgLe_trans _).imp
      (fun h => (avgLe_iff _ _).mp h)

/-- Closed instantiation of `fallback_sorted_singleton_records` on the
degenerate two-couple input of the counterexample. -/
theorem fallback_sorted_singleton_records_witness :
    majLoop [] 1 2 2 ["1", "2"] 1 =
      fallbackRecords (sortLe avgLe (["1", "2"].map
        (fun sn => (sn, avgRank [] 1 2 sn)))) 1 :=
  (fallback_sorted_singleton_records [] 1 2 ["1", "2"] 1 1
    (by with_unfolding_all decide) (by with_unfolding_all decide)).1

/-! ### Claim C2 -/

theorem qualifies_iff_double (jrs : List Ranking) (numJudges t : ℕ) (sn : String) :
    qualifies jrs numJudges t sn = true ↔ 2 * countLE jrs sn t > numJudges := by
  rw [qualifies, decide_eq_true_eq]
  rw [gt_iff_lt, div_lt_iff₀ (by norm_num : (0 : ℚ) < 2)]
  constructor
  · intro h
    have h' : numJudges < countLE jrs sn t * 2 := by exact_mod_cast h
    omega
  · intro h
    have h' : numJudges < countLE jrs sn t * 2 := by omega
    exact_mod_cast h'

theorem range'_find?_eq_some (p : ℕ → Bool) :
    ∀ (n s t : ℕ),
      (List.range' s n).find? p = some t ↔
        (p t = true ∧ s ≤ t ∧ t < s + n ∧ ∀ u, s ≤ u → u < t → p u = false) := by
  intro n
  induction n with
  | zero =>
    intro s t
    constructor
    · intro h
      simp [List.range'] at h
    · rintro ⟨_, h1, h2, _⟩
      omega
  | succ m ih =>
    intro s t
    rw [List.range'_succ]
    by_cases hps : p s = true
    · rw [List.find?_cons_of_pos _ hps]
      constructor
      · intro h
        rcases Option.some.inj h with rfl
        exact ⟨hps, le_refl s, by omega, fun u h1 h2 => absurd h2 (by omega)⟩
      · rintro ⟨hpt, h1, h2, hall⟩
        by_cases hts : t = s
        · rw [hts]
        · have hlt : s < t := lt_of_le_of_ne h1 (Ne.symm hts)
          have hfalse := hall s (le_refl s) hlt
          rw [hfalse] at hps
          cases hps
    · rw [List.find?_cons_of_neg _ (by simpa using hps)]
      rw [ih (s + 1) t]
      constructor
      · rintro ⟨hpt, h1, h2, hall⟩
        refine ⟨hpt, by omega, by omega, ?_⟩
        intro u hu1 hu2
        by_cases hus : u = s
        · subst hus
          simpa using hps
        · exact hall u (by omega) hu2
      · rintro ⟨hpt, h1, h2, hall⟩
        have hts : t ≠ s := by
          intro hts
          subst hts
          exact hps hpt
        refine ⟨hpt, by omega, by omega, ?_⟩
        intro u hu1 hu2
        exact hall u (by omega) hu2

theorem mem_candidateCounts (jrs : List Ranking) (numJudges t : ℕ)
    (unplaced : List String) (x : String) (cv : ℕ) :
    (x, cv) ∈ candidateCounts jrs numJudges t unplaced ↔
      (x ∈ unplaced ∧ qualifies jrs numJudges t x = true ∧ countLE jrs x t = cv) := by
  rw [candidateCounts, List.mem_filterMap]
  constructor
  · rintro ⟨sn, hsn, hf⟩
    by_cases hq : qualifies jrs numJudges t sn
    · rw [if_pos hq] at hf
      rcases Option.some.inj hf with heq
      have hx : sn = x := congrArg Prod.fst heq
      have hc : countLE jrs sn t = cv := congrArg Prod.snd heq
      subst hx
      exact ⟨hsn, hq, hc⟩
    · rw [if_neg hq] at hf
      cases hf
  · rintro ⟨hx, hq, hc⟩
    exact ⟨x, hx, by rw [if_pos hq, hc]⟩

theorem candidateCounts_ne_nil_iff (jrs : List Ranking) (numJudges t : ℕ)
    (unplaced : List String) :
    candidateCounts jrs numJudges t unplaced ≠ [] ↔
      ∃ sn ∈ unplaced, qualifies jrs numJudges t sn = true := by
  constructor
  · intro h
    rcases List.exists_mem_of_ne_nil _ h with ⟨pq, hpq⟩
    obtain ⟨sn, cv⟩ := pq
    rcases (mem_candidateCounts jrs numJudges t unplaced sn cv).mp hpq with ⟨h1, h2, _⟩
    exact ⟨sn, h1, h2⟩
  · rintro ⟨sn, hsn, hq⟩ hnil
    have hmem : (sn, countLE jrs sn t) ∈ candidateCounts jrs numJudges t unplaced :=
      (mem_candidateCounts jrs numJudges t unplaced sn _).mpr ⟨hsn, hq, rfl⟩
    rw [hnil] at hmem
    cases hmem

theorem sortCandLe_iff (a b : String × ℕ) :
    sortCandLe a b = true ↔ (b.2 < a.2 ∨ (a.2 = b.2 ∧ pyStrLe a.1 b.1 = true)) := by
  simp [sortCandLe, Bool.or_eq_true, Bool.and_eq_true, decide_eq_true_eq]

theorem sortCandLe_total (a b : String × ℕ) :
    sortCandLe a b = true ∨ sortCandLe b a = true := by
  rcases Nat.lt_trichotomy a.2 b.2 with h | h | h
  · right; exact (sortCandLe_iff b a).mpr (Or.inl h)
  · rcases pyStrLe_total a.1 b.1 with h' | h'
    · left; exact (sortCandLe_iff a b).mpr (Or.inr ⟨h, h'⟩)
    · right; exact (sortCandLe_iff b a).mpr (Or.inr ⟨h.symm, h'⟩)
  · left; exact (sortCandLe_iff a b).mpr (Or.inl h)

theorem sortCandLe_trans (a b c : String × ℕ) (h1 : sortCandLe a b = true)
    (h2 : sortCandLe b c = true) : sortCandLe a c = true := by
  rw [sortCandLe_iff] at h1 h2 ⊢
  rcases h1 with h1 | ⟨h1e, h1s⟩ <;> rcases h2 with h2 | ⟨h2e, h2s⟩
  · exact Or.inl (lt_trans h2 h1)
  · exact Or.inl (h2e ▸ h1)
  · exact Or.inl (h1e ▸ h2)
  · exact Or.inr ⟨h1e.trans h2e, pyStrLe_trans _ _ _ h1s h2s⟩

/-- Full characterisation of the equal-count grouping walk on a
count-nonincreasing list: every produced chunk carries a count at most
the current run's count, chunk counts strictly decrease, and a couple
belongs to a chunk exactly when it belongs to the pending accumulator
(for the current run) or appears in the tail with that chunk's count. -/
theorem chunkGo_spec :
    ∀ (l : List (String × ℕ)) (cnt : ℕ) (acc : List String),
      l.Pairwise (fun a b => b.2 ≤ a.2) →
      (∀ p ∈ l, p.2 ≤ cnt) →
      (∀ ch ∈ chunkGo cnt acc l,
        ch.1 ≤ cnt ∧
        ∀ x, x ∈ ch.2 ↔ ((ch.1 = cnt ∧ x ∈ acc.reverse) ∨ (x, ch.1) ∈ l))
      ∧ ((chunkGo cnt acc l).map Prod.fst).Pairwise (fun a b => b < a)
      ∧ (∀ c ∈ (chunkGo cnt acc l).map Prod.fst, c ≤ cnt) := by
  intro l
  induction l with
  | nil =>
    intro cnt acc _ _
    refine ⟨?_, by simp [chunkGo], ?_⟩
    · intro ch hch
      rcases List.mem_singleton.mp hch with rfl
      exact ⟨le_refl _, fun x => by simp⟩
    · intro c hc
      rcases List.mem_singleton.mp (by simpa [chunkGo] using hc) with rfl
      exact le_refl _
  | cons q rest ih =>
    intro cnt acc hsorted hle
    obtain ⟨sn, c⟩ := q
    rcases List.pairwise_cons.mp hsorted with ⟨hhead, hrest⟩
    have hcle : c ≤ cnt := hle (sn, c) (List.mem_cons_self _ _)
    by_cases heq : c = cnt
    · subst heq
      have hIH := ih c (sn :: acc) hrest (fun p hp => hhead p hp)
      simp only [chunkGo, if_pos rfl]
      refine ⟨?_, hIH.2.1, hIH.2.2⟩
      intro ch hch
      rcases hIH.1 ch hch with ⟨hle1, hmem⟩
      refine ⟨hle1, ?_⟩
      intro x
      rw [hmem x]
      constructor
      · rintro (⟨h1, h2⟩ | h2)
        · have h2' : x ∈ acc ∨ x = sn := by simpa using h2
          rcases h2' with hx | rfl
          · exact Or.inl ⟨h1, by simpa using hx⟩
          · exact Or.inr (by rw [h1]; exact List.mem_cons_self _ _)
        · exact Or.inr (List.mem_cons_of_mem _ h2)
      · rintro (⟨h1, h2⟩ | h2)
        · exact Or.inl ⟨h1, by simp [h2]⟩
        · rcases List.mem_cons.mp h2 with heq2 | h3
          · have hx : x = sn := congrArg Prod.fst heq2
            have hc1 : ch.1 = c := congrArg Prod.snd heq2
            subst hx
            exact Or.inl ⟨hc1, by simp⟩
          · exact Or.inr h3
    · have hclt : c < cnt := lt_of_le_of_ne hcle heq
      have hIH := ih c [sn] hrest (fun p hp => hhead p hp)
      simp only [chunkGo, if_neg heq]
      refine ⟨?_, ?_, ?_⟩
      · intro ch hch
        rcases List.mem_cons.mp hch with rfl | hch'
        · refine ⟨le_refl _, ?_⟩
          intro x
          constructor
          · intro hx
            exact Or.inl ⟨rfl, hx⟩
          · rintro (⟨_, hx⟩ | hx)
            · exact hx
            · exfalso
              rcases List.mem_cons.mp hx with heq2 | h3
              · have : cnt = c := congrArg Prod.snd heq2
                omega
              · have hb := hhead (x, cnt) h3
                simp only at hb
                omega
        · rcases hIH.1 ch hch' with ⟨hle1, hmem⟩
          refine ⟨le_trans hle1 (le_of_lt hclt), ?_⟩
          intro x
          rw [hmem x]
          constructor
          · rintro (⟨h1, h2⟩ | h2)
            · rcases List.mem_singleton.mp (by simpa using h2) with rfl
              exact Or.inr (by rw [h1]; exact List.mem_cons_self _ _)
            · exact Or.inr (List.mem_cons_of_mem _ h2)
          · rintro (⟨h1, _⟩ | h2)
            · exfalso
              omega
            · rcases List.mem_cons.mp h2 with heq2 | h3
              · have hx : x = sn := congrArg Prod.fst heq2
                have hc1 : ch.1 = c := congrArg Prod.snd heq2
                subst hx
                exact Or.inl ⟨hc1, by simp⟩
              · exact Or.inr h3
      · refine List.pairwise_cons.mpr ⟨?_, hIH.2.1⟩
        intro c2 hc2
        have := hIH.2.2 c2 hc2
        omega
      · intro c2 hc2
        rcases List.mem_cons.mp hc2 with rfl | hc2'
        · exact le_refl _
        · exact le_trans (hIH.2.2 c2 hc2') (le_of_lt hclt)

/-- Characterisation of the equal-count chunks of a count-nonincreasing
candidate list: counts strictly decrease across chunks and membership
in a chunk is exactly pair-membership in the list at that chunk's
count. -/
theorem chunkByCount_spec (l : List (String × ℕ))
    (hsorted : l.Pairwise (fun a b => b.2 ≤ a.2)) :
    ((chunkByCount l).map Prod.fst).Pairwise (fun a b => b < a)
    ∧ ∀ ch ∈ chunkByCount l, ∀ x, x ∈ ch.2 ↔ (x, ch.1) ∈ l := by
  cases l with
  | nil => exact ⟨by simp [chunkByCount], by intro ch hch; cases hch⟩
  | cons q rest =>
    obtain ⟨sn, c⟩ := q
    rcases List.pairwise_cons.mp hsorted with ⟨hhead, hrest⟩
    have hspec := chunkGo_spec rest c [sn] hrest (fun p hp => hhead p hp)
    refine ⟨hspec.2.1, ?_⟩
    intro ch hch x
    rcases hspec.1 ch hch with ⟨_, hmem⟩
    rw [hmem x]
    constructor
    · rintro (⟨h1, h2⟩ | h2)
      · rcases List.mem_singleton.mp (by simpa using h2) with rfl
        exact (by rw [h1]; exact List.mem_cons_self _ _)
      · exact List.mem_cons_of_mem _ h2
    · intro h2
      rcases List.mem_cons.mp h2 with heq2 | h3
      · have hx : x = sn := congrArg Prod.fst heq2
        have hc1 : ch.1 = c := congrArg Prod.snd heq2
        subst hx
        exact Or.inl ⟨hc1, by simp⟩
      · exact Or.inr h3

/-- **C2.**  In each round of the majority placement loop: a competitor
qualifies at threshold `t` exactly when strictly more than half the
judges (`2·count > num_judges`, the integer reading of `count >
num_judges / 2` under true division) rank it at position `t` or better;
the threshold the engine uses is the first `t` in `1, …, total_couples`
at which some unplaced competitor qualifies (and none qualifies at any
earlier threshold); and the tie groups formed from the qualifiers are
exactly the maximal equal-count classes, processed in strictly
descending order of qualifying-judge count. -/
theorem majority_threshold_qualification_and_grouping :
    ∀ (jrs : List Ranking) (numJudges totalCouples t : ℕ) (unplaced : List String),
      (∀ (sn : String) (t' : ℕ), qualifies jrs numJudges t' sn = true ↔
        2 * countLE jrs sn t' > numJudges)
      ∧ (findThreshold jrs numJudges totalCouples unplaced = some t ↔
          (1 ≤ t ∧ t ≤ totalCouples
            ∧ (∃ sn ∈ unplaced, qualifies jrs numJudges t sn = true)
            ∧ ∀ u, 1 ≤ u → u < t →
                ∀ sn ∈ unplaced, qualifies jrs numJudges u sn = false))
      ∧ (((chunkByCount (sortLe sortCandLe
            (candidateCounts jrs numJudges t unplaced))).map Prod.fst).Pairwise
          (fun a b => b < a))
      ∧ (∀ ch ∈ chunkByCount (sortLe sortCandLe
            (candidateCounts jrs numJudges t unplaced)),
          ∀ x, x ∈ ch.2 ↔
            (x ∈ unplaced ∧ qualifies jrs numJudges t x = true ∧
              countLE jrs x t = ch.1)) := by
  intro jrs numJudges totalCouples t unplaced
  have hsorted : (sortLe sortCandLe (candidateCounts jrs numJudges t unplaced)).Pairwise
      (fun a b : String × ℕ => b.2 ≤ a.2) := by
    refine (sortLe_sorted sortCandLe sortCandLe_total sortCandLe_trans _).imp ?_
    intro a b h
    rcases (sortCandLe_iff a b).mp h with h | ⟨h, _⟩
    · exact le_of_lt h
    · exact le_of_eq h.symm
  have hchunk := chunkByCount_spec _ hsorted
  refine ⟨fun sn t' => qualifies_iff_double jrs numJudges t' sn, ?_, hchunk.1, ?_⟩
  · rw [findThreshold, range'_find?_eq_some]
    constructor
    · rintro ⟨hpt, h1, h2, hall⟩
      refine ⟨h1, by omega, ?_, ?_⟩
      · rw [← candidateCounts_ne_nil_iff]
        simpa using hpt
      · intro u hu1 hu2 sn hsn
        cases hqv : qualifies jrs numJudges u sn with
        | false => rfl
        | true =>
          exfalso
          have hne : candidateCounts jrs numJudges u unplaced ≠ [] :=
            (candidateCounts_ne_nil_iff jrs numJudges u unplaced).mpr ⟨sn, hsn, hqv⟩
          have hfalse := hall u hu1 hu2
          simp [hne] at hfalse
    · rintro ⟨h1, h2, hex, hall⟩
      refine ⟨by simpa using (candidateCounts_ne_nil_iff jrs numJudges t unplaced).mpr hex,
        h1, by omega, ?_⟩
      intro u hu1 hu2
      have hnil : candidateCounts jrs numJudges u unplaced = [] := by
        by_contra hne
        rcases (candidateCounts_ne_nil_iff jrs numJudges u unplaced).mp hne with
          ⟨sn, hsn, hq⟩
        have hfalse := hall u hu1 hu2 sn hsn
        rw [hfalse] at hq
        cases hq
      simp [hnil]
  · intro ch hch x
    rw [hchunk.2 ch hch x, (sortLe_perm sortCandLe _).mem_iff]
    exact mem_candidateCounts jrs numJudges t unplaced x ch.1

/-- Closed instantiation of
`majority_threshold_qualification_and_grouping`: in the symmetric
2-judge scenario the first usable threshold is 2. -/
theorem majority_threshold_witness :
    findThreshold [[("1", 1), ("2", 2)], [("1", 2), ("2", 1)]] 2 2 ["1", "2"] = some 2 :=
  ((majority_threshold_qualification_and_grouping
      [[("1", 1), ("2", 2)], [("1", 2), ("2", 1)]] 2 2 2 ["1", "2"]).2.1).mpr
    ⟨by norm_num, by norm_num,
      ⟨"1", by simp, by with_unfolding_all decide⟩,
      by
        intro u hu1 hu2 sn hsn
        have hu : u = 1 := by omega
        subst hu
        simp only [List.mem_cons, List.mem_singleton] at hsn
        rcases hsn with rfl | hsn
        · with_unfolding_all decide
        · rcases hsn with rfl | hsn
          · with_unfolding_all decide
          · cases hsn⟩

/-! ## Round combiner (`combine_rounds_for_majority`,
`Main_Dashboard.py` 611-676) -/

/-- The `f"{cat}_aggregated"` column of a row. -/
def CoupleRow.aggregated (r : CoupleRow) : Cat → Option ℚ
  | Cat.BBW => r.BBW_aggregated
  | Cat.BBM => r.BBM_aggregated
  | Cat.LF => r.LF_aggregated
  | Cat.DF => r.DF_aggregated
  | Cat.MI => r.MI_aggregated

/-- Per-slot merge of one category's two judge-score lists (source
lines 649-667): pad the shorter list with absents; both absent keeps
absent, otherwise absent slots contribute 0 to the sum. -/
def mergeScoreLists (scoresA scoresB : List (Option ℚ)) : List (Option ℚ) :=
  let maxLen := max scoresA.length scoresB.length
  if maxLen = 0 then []
  else
    (List.range maxLen).map (fun idx =>
      let valA := scoresA.getD idx Option.none
      let valB := scoresB.getD idx Option.none
      match valA, valB with
      | Option.none, Option.none => Option.none
      | _, _ => some (valA.getD 0 + valB.getD 0))

/-- `combined = base_row.copy()` followed by overwriting the five
judge-score columns with the merged lists (source lines 641-669); every
other column of the base row passes through untouched. -/
def combineRow (base other : CoupleRow) : CoupleRow :=
  categoriesList.foldl
    (fun combined cat =>
      combined.setJudgeScores cat
        (mergeScoreLists (base.judgeScores cat) (other.judgeScores cat)))
    base

/-- The start-number-keyed row dictionaries of source lines 623-624. -/
def rowMap (rows : List CoupleRow) : List (String × CoupleRow) :=
  rows.map (fun r => (r.start_number, r))

/-- `sorted(set(current) | set(other))` over start numbers (source
line 628; the `x is None` key component is vacuous because every key is
a string). -/
def allStartNumbers (cur oth : List CoupleRow) : List String :=
  sortLe pyStrLe
    ((cur.map (fun r => r.start_number)) ++ (oth.map (fun r => r.start_number))).dedup

/-- `combine_rounds_for_majority` (source lines 611-676): empty rounds
pass the other round through; otherwise every start number of either
round yields the base row, the other row, or their merged combination. -/
def combine_rounds_for_majority (cur oth : List CoupleRow) : List CoupleRow :=
  if cur = [] then oth
  else if oth = [] then cur
  else
    (allStartNumbers cur oth).filterMap (fun sn =>
      match (rowMap cur).lookup sn, (rowMap oth).lookup sn with
      | Option.none, some otherRow => some otherRow
      | some baseRow, Option.none => some baseRow
      | some baseRow, some otherRow => some (combineRow baseRow otherRow)
      | Option.none, Option.none => Option.none)

set_option maxHeartbeats 1000000 in
/-- **C10.**  For a competitor present in both rounds, the combined
record is the current round's record with only the five judge-score
lists replaced by the per-slot merged lists: the combined row is in the
output, and its identity, name, position, observer, meta columns, the
five pre-computed `aggregated` values and the pre-computed `teor`,
`sum`, `total` are all taken unchanged from the first round — nothing
is recomputed from the merged scores. -/
theorem combine_rounds_keeps_base_fields_replaces_scores :
    ∀ (cur oth : List CoupleRow) (sn : String) (base otherRow : CoupleRow),
      cur ≠ [] → oth ≠ [] →
      (cur.map (fun r => r.start_number)).Nodup →
      (oth.map (fun r => r.start_number)).Nodup →
      base ∈ cur → base.start_number = sn →
      otherRow ∈ oth → otherRow.start_number = sn →
      combineRow base otherRow ∈ combine_rounds_for_majority cur oth
      ∧ (combineRow base otherRow).start_number = base.start_number
      ∧ (combineRow base otherRow).position = base.position
      ∧ (combineRow base otherRow).teor = base.teor
      ∧ (combineRow base otherRow).sum = base.sum
      ∧ (combineRow base otherRow).total = base.total
      ∧ (combineRow base otherRow).observer = base.observer
      ∧ (combineRow base otherRow).competitor_names = base.competitor_names
      ∧ (combineRow base otherRow).location = base.location
      ∧ (combineRow base otherRow).date = base.date
      ∧ (combineRow base otherRow).round = base.round
      ∧ (combineRow base otherRow).classLabel = base.classLabel
      ∧ (∀ c : Cat, (combineRow base otherRow).aggregated c = base.aggregated c)
      ∧ (∀ c : Cat, (combineRow base otherRow).judgeScores c =
          mergeScoreLists (base.judgeScores c) (otherRow.judgeScores c)) := by
  intro cur oth sn base otherRow hcur hoth hndc hndo hbmem hbsn homem hosn
  have hmemCurMap : (sn, base) ∈ rowMap cur := by
    rw [← hbsn]
    exact List.mem_map_of_mem _ hbmem
  have hmemOthMap : (sn, otherRow) ∈ rowMap oth := by
    rw [← hosn]
    exact List.mem_map_of_mem _ homem
  have hkeysCur : ((rowMap cur).map Prod.fst).Nodup := by
    rw [rowMap, List.map_map]
    exact hndc
  have hkeysOth : ((rowMap oth).map Prod.fst).Nodup := by
    rw [rowMap, List.map_map]
    exact hndo
  have hlookupCur : (rowMap cur).lookup sn = some base :=
    lookup_eq_some_of_mem_of_nodup_keys _ _ _ hkeysCur hmemCurMap
  have hlookupOth : (rowMap oth).lookup sn = some otherRow :=
    lookup_eq_some_of_mem_of_nodup_keys _ _ _ hkeysOth hmemOthMap
  have hAll : sn ∈ allStartNumbers cur oth := by
    rw [allStartNumbers, (sortLe_perm pyStrLe _).mem_iff, List.mem_dedup]
    apply List.mem_append.mpr
    left
    rw [← hbsn]
    exact List.mem_map_of_mem _ hbmem
  refine ⟨?_, ?_, ?_, ?_, ?_, ?_, ?_, ?_, ?_, ?_, ?_, ?_, ?_, ?_⟩
  · rw [combine_rounds_for_majority, if_neg hcur, if_neg hoth]
    exact List.mem_filterMap.mpr ⟨sn, hAll, by rw [hlookupCur, hlookupOth]⟩
  · simp [combineRow, categoriesList, CoupleRow.setJudgeScores]
  · simp [combineRow, categoriesList, CoupleRow.setJudgeScores]
  · simp [combineRow, categoriesList, CoupleRow.setJudgeScores]
  · simp [combineRow, categoriesList, CoupleRow.setJudgeScores]
  · simp [combineRow, categoriesList, CoupleRow.setJudgeScores]
  · simp [combineRow, categoriesList, CoupleRow.setJudgeScores]
  · simp [combineRow, categoriesList, CoupleRow.setJudgeScores]
  · simp [combineRow, categoriesList, CoupleRow.setJudgeScores]
  · simp [combineRow, categoriesList, CoupleRow.setJudgeScores]
  · simp [combineRow, categoriesList, CoupleRow.setJudgeScores]
  · simp [combineRow, categoriesList, CoupleRow.setJudgeScores]
  · intro c
    cases c <;>
      simp [combineRow, categoriesList, CoupleRow.setJudgeScores, CoupleRow.aggregated]
  · intro c
    cases c <;>
      simp [combineRow, categoriesList, CoupleRow.setJudgeScores, CoupleRow.judgeScores]

/-- A one-couple current round (id "1") for the combiner witness. -/
def exampleRowC10a : CoupleRow :=
  { start_number := "1", position := 3, teor := some 5, sum := some 7,
    total := some 12, observer := "obs", competitor_names := "A & B",
    location := "L", date := "D", round := "R", classLabel := "C",
    BBW_aggregated := some 4, BBM_aggregated := Option.none,
    LF_aggregated := Option.none, DF_aggregated := Option.none,
    MI_aggregated := Option.none,
    BBW_judge_scores := [some 1, Option.none],
    BBM_judge_scores := [], LF_judge_scores := [], DF_judge_scores := [],
    MI_judge_scores := [] }

/-- The matching other-round row (same id "1") for the combiner
witness. -/
def exampleRowC10b : CoupleRow :=
  { start_number := "1", position := 9, teor := Option.none, sum := Option.none,
    total := some 99, observer := "", competitor_names := "A & B", location := "",
    date := "", round := "", classLabel := "",
    BBW_aggregated := some 8, BBM_aggregated := Option.none,
    LF_aggregated := Option.none, DF_aggregated := Option.none,
    MI_aggregated := Option.none,
    BBW_judge_scores := [some 2],
    BBM_judge_scores := [], LF_judge_scores := [], DF_judge_scores := [],
    MI_judge_scores := [] }

/-- Closed instantiation of
`combine_rounds_keeps_base_fields_replaces_scores` on two concrete
one-couple rounds. -/
theorem combine_rounds_keeps_base_fields_witness :
    combineRow exampleRowC10a exampleRowC10b ∈
      combine_rounds_for_majority [exampleRowC10a] [exampleRowC10b] ∧
    (combineRow exampleRowC10a exampleRowC10b).total = exampleRowC10a.total :=
  ⟨(combine_rounds_keeps_base_fields_replaces_scores [exampleRowC10a] [exampleRowC10b]
      "1" exampleRowC10a exampleRowC10b
      (by with_unfolding_all decide) (by with_unfolding_all decide)
      (by with_unfolding_all decide) (by with_unfolding_all decide)
      (List.mem_singleton.mpr rfl) rfl (List.mem_singleton.mpr rfl) rfl).1,
   (combine_rounds_keeps_base_fields_replaces_scores [exampleRowC10a] [exampleRowC10b]
      "1" exampleRowC10a exampleRowC10b
      (by with_unfolding_all decide) (by with_unfolding_all decide)
      (by with_unfolding_all decide) (by with_unfolding_all decide)
      (List.mem_singleton.mpr rfl) rfl (List.mem_singleton.mpr rfl) rfl).2.2.2.2.2.1⟩
